import Mathlib

/-!
Shallow embedding of the profiling core of `cloud-profiler-java`
(files `src/third_party/javaprofiler/stacktrace_fixer.cc` and
`src/third_party/javaprofiler/profile_proto_builder.cc`), together with
theorems settling the specification claims about it.

Strings are modelled as `List Char` internally (with `String` wrappers at the
public API), machine integers as `Int`/`Nat`, and the `double` arithmetic of
the sampling correction as real numbers.  Recursions that the C++ performs
with cursor loops are modelled with an explicit fuel argument so that every
definition is a structural recursion the kernel can evaluate; a fuel of the
input length is always sufficient, which is proved once and then hidden
behind equation lemmas.
-/

namespace Javaprofiler

/-- The suffix-character set `"0123456789abcdef"` of `SimplifySuffixedName`
as used by `SimplifyDynamicClassName`.  The C++ call passes the array length
`N` (which counts the trailing NUL) to `find_first_not_of`, so the NUL
character is part of the set; we reproduce that faithfully. -/
def hexDigitOrNul (c : Char) : Bool :=
  ("0123456789abcdef".toList.contains c) || c = Char.ofNat 0

/-- The suffix-character set `"0123456789"` of the reflection-name rewrites,
again including the NUL character because of the `N` template argument. -/
def decDigitOrNul (c : Char) : Bool :=
  ("0123456789".toList.contains c) || c = Char.ofNat 0

/-- Fuel-indexed worker for `SimplifySuffixedName` (stacktrace_fixer.cc,
lines 30-43).  The C++ loop repeatedly finds the trigger from the current
cursor, skips it, and erases the maximal run of suffix characters that
follows; scanning character by character while erasing the run right after
each trigger occurrence computes the same string.  One unit of fuel is spent
per emitted character, so fuel `l.length` always suffices. -/
def ssnGo (trig : List Char) (suff : Char → Bool) : Nat → List Char → List Char
  | 0, l => l
  | _ + 1, [] => []
  | fuel + 1, c :: r =>
    if trig.isPrefixOf (c :: r) ∧ trig ≠ [] then
      trig ++ ssnGo trig suff fuel (List.dropWhile suff ((c :: r).drop trig.length))
    else
      c :: ssnGo trig suff fuel r

/-- `SimplifySuffixedName` from stacktrace_fixer.cc lines 30-43, on char
lists. -/
def SimplifySuffixedName (trig : List Char) (suff : Char → Bool) (l : List Char) :
    List Char :=
  ssnGo trig suff l.length l

/-- `SimplifyDynamicClassName` (stacktrace_fixer.cc lines 49-53): replace
`$$[0-9a-f]+` by `$$`. -/
def SimplifyDynamicClassName (name : List Char) : List Char :=
  SimplifySuffixedName "$$".toList hexDigitOrNul name

/-- First-occurrence splitter: `splitFirst pat l = some (pre, post)` exactly
when `pat` occurs in `l`, with `pre` the text before the leftmost occurrence
and `post` the text after it.  This models `std::string::find`. -/
def splitFirst (pat : List Char) (l : List Char) : Option (List Char × List Char) :=
  if pat.isPrefixOf l then
    some ([], l.drop pat.length)
  else
    match l with
    | [] => none
    | c :: r => (splitFirst pat r).map (fun p => (c :: p.1, p.2))

/-- `SimplifyLambdaName` (stacktrace_fixer.cc lines 58-87): rewrite the first
`$$Lambda$<digits>.<digits>` to `$$Lambda$`; on any shape mismatch the input
is returned unchanged. -/
def SimplifyLambdaName (name : List Char) : List Char :=
  match splitFirst "$$Lambda$".toList name with
  | none => name
  | some (pre, rest) =>
    match rest with
    | [] => name
    | d :: _ =>
      if d.isDigit then
        match List.dropWhile Char.isDigit rest with
        | [] => name
        | dot :: r2 =>
          if dot = '.' then
            match r2 with
            | [] => name
            | e :: _ =>
              if e.isDigit then
                match List.dropWhile Char.isDigit r2 with
                | [] => pre ++ "$$Lambda$".toList
                | f :: r3 => pre ++ "$$Lambda$".toList ++ (f :: r3)
              else name
          else name
      else name

/-- The rightmost branch cascade of `SimplifyLambdaName` (definitionally the
final `match`/`if` stage of its body, split out so each stage has its own
equations): handling of the text after the second digit run. -/
def lambdaStep4 (pre : List Char) : List Char → List Char
  | [] => pre ++ "$$Lambda$".toList
  | f :: r3 => pre ++ "$$Lambda$".toList ++ (f :: r3)

/-- Stage of `SimplifyLambdaName` after the dot: expect a digit and erase the
digit run.  The first `r2` argument is the text after the dot (captured by
the branch body), the last argument is the same list being matched. -/
def lambdaStep3 (name pre r2 : List Char) : List Char → List Char
  | [] => name
  | e :: _ =>
    if e.isDigit then lambdaStep4 pre (List.dropWhile Char.isDigit r2)
    else name

/-- Stage of `SimplifyLambdaName` after the first digit run: expect a dot. -/
def lambdaStep2 (name pre : List Char) : List Char → List Char
  | [] => name
  | dot :: r2 => if dot = '.' then lambdaStep3 name pre r2 r2 else name

/-- The post-trigger stage of `SimplifyLambdaName`: expect a digit, then a
dot, then a digit, then erase through the second digit run.  `rest` is the
text after the trigger, passed both as captured context and as scrutinee. -/
def lambdaRewriteGo (name pre rest : List Char) : List Char → List Char
  | [] => name
  | d :: _ =>
    if d.isDigit then lambdaStep2 name pre (List.dropWhile Char.isDigit rest)
    else name

/-- The whole post-trigger stage of `SimplifyLambdaName`. -/
def lambdaRewrite (name pre rest : List Char) : List Char :=
  lambdaRewriteGo name pre rest rest

/-- `SimplifyReflectionMethodName` (stacktrace_fixer.cc lines 92-101):
collapse the three reflection-accessor class-name prefixes followed by
digits. -/
def SimplifyReflectionMethodName (name : List Char) : List Char :=
  SimplifySuffixedName "sun.reflect.GeneratedSerializationConstructorAccessor".toList
    decDigitOrNul
    (SimplifySuffixedName "sun.reflect.GeneratedMethodAccessor".toList decDigitOrNul
      (SimplifySuffixedName "sun.reflect.GeneratedConstructorAccessor".toList decDigitOrNul
        name))

/-- `SimplifyFunctionName` (stacktrace_fixer.cc lines 231-236). -/
def SimplifyFunctionName (name : String) : String :=
  ⟨SimplifyReflectionMethodName (SimplifyLambdaName (SimplifyDynamicClassName name.data))⟩

/-- The diagnostic suffix appended by `ParseMethodTypeSignatureInternal` when
the closing parenthesis is missing (stacktrace_fixer.cc line 200). -/
def noParenSuffix : String :=
  " <Method Signature Error: no " ++ String.singleton (Char.ofNat 39) ++ ")" ++
    String.singleton (Char.ofNat 39) ++ ">"

/-- `AtSignatureEnd` (stacktrace_fixer.cc lines 174-176). -/
def atSignatureEnd (b : List Char) (pos : Nat) : Bool :=
  decide (b.length ≤ pos) || b[pos]? == some ')'

/-- Selector for the four mutually recursive parser functions of
stacktrace_fixer.cc: `ParseFieldType` (lines 109-172),
`ParseMethodTypeSignatureWithReturn` (lines 212-227),
`ParseMethodTypeSignatureInternal` (lines 178-203) and the argument loop
inside the latter. -/
inductive ParserMode
  | field
  | withReturn
  | internal
  | args

/-- Fuel-indexed embedding of the mutually recursive descriptor parser of
stacktrace_fixer.cc (lines 103-227), written as one structurally recursive
function over the fuel so that the kernel can evaluate it.  The C++ threads
a mutable cursor through the buffer; here every mode returns the
pretty-printed string together with the new cursor.  Every call consumes one
unit of fuel, and in the `'('` case the C++ decrements the cursor before
re-entering the method sub-grammar (net cursor change zero), which is
modelled by calling the sub-grammar at the same position.  A fuel of
`4 * length + 8` always suffices because at most four nested calls happen
before the cursor strictly advances. -/
def parseF : Nat → ParserMode → List Char → Nat → String × Nat
  | 0, _, _, pos => ("", pos)
  | fuel + 1, ParserMode.field, b, pos =>
    if h : pos < b.length then
      if b.get ⟨pos, h⟩ = 'B' then ("byte", pos + 1)
      else if b.get ⟨pos, h⟩ = 'C' then ("char", pos + 1)
      else if b.get ⟨pos, h⟩ = 'D' then ("double", pos + 1)
      else if b.get ⟨pos, h⟩ = 'F' then ("float", pos + 1)
      else if b.get ⟨pos, h⟩ = 'I' then ("int", pos + 1)
      else if b.get ⟨pos, h⟩ = 'J' then ("long", pos + 1)
      else if b.get ⟨pos, h⟩ = 'S' then ("short", pos + 1)
      else if b.get ⟨pos, h⟩ = 'Z' then ("boolean", pos + 1)
      else if b.get ⟨pos, h⟩ = 'V' then ("void", pos + 1)
      else if b.get ⟨pos, h⟩ = 'L' then
        match (b.drop (pos + 1)).findIdx? (fun c => c == ';') with
        | some k => (String.mk ((b.drop (pos + 1)).take k), (pos + 1) + (k + 1))
        | none => ("<error: end of string reached>", b.length)
      else if b.get ⟨pos, h⟩ = '[' then
        ((parseF fuel ParserMode.field b (pos + 1)).1 ++ "[]",
          (parseF fuel ParserMode.field b (pos + 1)).2)
      else if b.get ⟨pos, h⟩ = '(' then
        parseF fuel ParserMode.withReturn b pos
      else ("<error: unknown type>", pos + 1)
    else ("<error: end of buffer reached>", pos)
  | fuel + 1, ParserMode.withReturn, b, pos =>
    if (parseF fuel ParserMode.internal b pos).1 = "" then
      ("", (parseF fuel ParserMode.internal b pos).2)
    else if (parseF fuel ParserMode.internal b pos).1.data.getLast? = some ')' then
      ((parseF fuel ParserMode.field b
          (parseF fuel ParserMode.internal b pos).2).1 ++ " " ++
        (parseF fuel ParserMode.internal b pos).1,
        (parseF fuel ParserMode.field b
          (parseF fuel ParserMode.internal b pos).2).2)
    else parseF fuel ParserMode.internal b pos
  | fuel + 1, ParserMode.internal, b, pos =>
    if h : pos < b.length then
      if b.get ⟨pos, h⟩ = '(' then
        if (parseF fuel ParserMode.args b (pos + 1)).2 < b.length then
          ("(" ++ (parseF fuel ParserMode.args b (pos + 1)).1 ++ ")",
            (parseF fuel ParserMode.args b (pos + 1)).2 + 1)
        else
          ("(" ++ (parseF fuel ParserMode.args b (pos + 1)).1 ++ noParenSuffix,
            (parseF fuel ParserMode.args b (pos + 1)).2)
      else ("", pos)
    else ("", pos)
  | fuel + 1, ParserMode.args, b, pos =>
    if atSignatureEnd b pos then ("", pos)
    else if atSignatureEnd b (parseF fuel ParserMode.field b pos).2 then
      parseF fuel ParserMode.field b pos
    else
      ((parseF fuel ParserMode.field b pos).1 ++ ", " ++
        (parseF fuel ParserMode.args b (parseF fuel ParserMode.field b pos).2).1,
        (parseF fuel ParserMode.args b (parseF fuel ParserMode.field b pos).2).2)

/-- Sufficient fuel for a buffer: the cursor strictly advances at least once
every four nested calls. -/
def parserFuel (b : List Char) : Nat := 4 * b.length + 8

/-- `ParseFieldType` at sufficient fuel. -/
def ParseFieldType (b : List Char) (pos : Nat) : String × Nat :=
  parseF (parserFuel b) ParserMode.field b pos

/-- `ParseMethodTypeSignature` (stacktrace_fixer.cc lines 208-210). -/
def ParseMethodTypeSignature (b : List Char) (pos : Nat) : String × Nat :=
  parseF (parserFuel b) ParserMode.internal b pos

/-- `ParseMethodTypeSignatureWithReturn` (stacktrace_fixer.cc lines
212-227) at sufficient fuel. -/
def ParseMethodTypeSignatureWithReturn (b : List Char) (pos : Nat) : String × Nat :=
  parseF (parserFuel b) ParserMode.withReturn b pos

/-- `FixPath` (stacktrace_fixer.cc lines 238-240): rewrite `/` to `.`. -/
def FixPath (s : String) : String :=
  ⟨s.data.map (fun c => if c = '/' then '.' else c)⟩

/-- `PrettyPrintSignature` (stacktrace_fixer.cc lines 242-247). -/
def PrettyPrintSignature (s : String) : String :=
  FixPath (ParseFieldType s.data 0).1

/-- `FixMethodParameters` (stacktrace_fixer.cc lines 249-262): a no-op
unless the signature starts with `'('`; otherwise rewrite slashes to dots
and replace the descriptor with the parsed parameter list.  Note that it
calls `ParseMethodTypeSignature`, not the `WithReturn` variant. -/
def FixMethodParameters (signature : String) : String :=
  if signature.data.head? = some '(' then
    (ParseMethodTypeSignature (FixPath signature).data 0).1
  else signature

/-! ## The profile builder (profile_proto_builder.cc) -/

/-- A captured stack frame (`JVMPI_CallFrame`): a line number and an opaque
method identity (a pointer in C++, here an opaque `Nat`; `0` is the null
method id). -/
structure JVMPI_CallFrame where
  lineno : Int
  method_id : Nat
deriving DecidableEq

/-- A captured stack trace (`JVMPI_CallTrace`); `num_frames` is the list
length. -/
structure JVMPI_CallTrace where
  frames : List JVMPI_CallFrame
deriving DecidableEq

/-- `ProfileStackTrace`: a raw trace plus the metric value of the whole
trace. -/
structure ProfileStackTrace where
  trace : JVMPI_CallTrace
  metric_value : Int
deriving DecidableEq

/-- Modelled from the spec: the sentinel line number marking native frames
(`kNativeFrameLineNum`) is declared in a header that is not under src/; only
its role as a fixed sentinel matters, so an arbitrary concrete sentinel is
used. -/
def kNativeFrameLineNum : Int := -99

/-- `LocationBuilder::LocationInfo`: the rendered-identity key of a
location. -/
structure LocationInfo where
  class_name : String
  function_name : String
  file_name : String
  line_number : Int
deriving DecidableEq

/-- A profile `Location`: dense positive id, `(function id, line)` entries,
and an optional address (0 when unset, as in proto3). -/
structure Location where
  id : Nat
  line : List (Nat × Int)
  address : Nat
deriving DecidableEq

/-- A profile `Function` record (created by `builder_->FunctionId`). -/
structure ProfileFunction where
  id : Nat
  name : String
  filename : String
deriving DecidableEq

/-- A profile `Sample`: location ids leaf first, and the value vector. -/
structure Sample where
  location_id : List Nat
  value : List Int
deriving DecidableEq

/-- The mutable state owned by one `ProfileProtoBuilder`: the growing
profile (samples, locations, functions) plus the two dedup tables
`LocationBuilder::locations_` and `TraceSamples::traces_`.  The C++ tables
store pointers into the profile; here they store indices into the
corresponding lists, which is faithful because both lists are append-only. -/
structure BuilderState where
  samples : List Sample
  locations : List Location
  functions : List ProfileFunction
  locMap : List (LocationInfo × Nat)
  traceMap : List (JVMPI_CallTrace × Nat)
deriving DecidableEq

/-- A freshly constructed builder. -/
def emptyBuilder : BuilderState := ⟨[], [], [], [], []⟩

/-- `TraceSamples::TraceEquals::operator()` (profile_proto_builder.cc lines
285-302): frame counts equal and every frame's method identity and line
number equal. -/
def TraceEquals (t1 t2 : JVMPI_CallTrace) : Bool :=
  decide (t1.frames.length = t2.frames.length) &&
    (t1.frames.zip t2.frames).all
      (fun p => p.1.method_id == p.2.method_id && p.1.lineno == p.2.lineno)

/-- `LocationBuilder::LocationInfoEquals::operator()` (lines 225-231):
field-wise equality of the four key components. -/
def LocationInfoEquals (i1 i2 : LocationInfo) : Bool :=
  i1.class_name == i2.class_name && i1.function_name == i2.function_name &&
    i1.file_name == i2.file_name && i1.line_number == i2.line_number

/-- Lookup in the location dedup table, with the source's equality. -/
def locFind (m : List (LocationInfo × Nat)) (info : LocationInfo) : Option Nat :=
  (m.find? (fun p => LocationInfoEquals p.1 info)).map Prod.snd

/-- `TraceSamples::SampleFor` (lines 304-312): lookup with the source's
trace equality. -/
def traceFind (m : List (JVMPI_CallTrace × Nat)) (t : JVMPI_CallTrace) : Option Nat :=
  (m.find? (fun p => TraceEquals p.1 t)).map Prod.snd

/-- Modelled from the spec: `builder_->FunctionId` belongs to the external
`perftools::profiles::Builder`, which is not under src/; per §3 it interns a
function record (display name, source file) and returns its dense positive
id. -/
def FunctionIdFor (st : BuilderState) (name filename : String) : BuilderState × Nat :=
  match st.functions.find? (fun f => f.name == name && f.filename == filename) with
  | some f => (st, f.id)
  | none =>
    let fid := st.functions.length + 1
    ({ st with functions := st.functions ++ [⟨fid, name, filename⟩] }, fid)

/-- `LocationBuilder::LocationFor` (profile_proto_builder.cc lines 233-262):
return the stored location on a key hit, otherwise allocate id
`location_size + 1`, create the backing function record, attach the
`(function id, line)` entry, and register the key.  Returns the index of the
location in the profile's location list (the C++ returns a pointer). -/
def LocationFor (st : BuilderState) (class_name function_name file_name : String)
    (line_number : Int) : BuilderState × Nat :=
  let info : LocationInfo := ⟨class_name, function_name, file_name, line_number⟩
  match locFind st.locMap info with
  | some idx => (st, idx)
  | none =>
    let location_id := st.locations.length + 1
    let fr := FunctionIdFor st function_name file_name
    let idx := fr.1.locations.length
    let loc : Location := ⟨location_id, [(fr.2, line_number)], 0⟩
    ({ fr.1 with locations := fr.1.locations ++ [loc],
                 locMap := fr.1.locMap ++ [(info, idx)] }, idx)

/-- Modelled from the spec (§4.6): the `StackState` class is declared in a
header that is not under src/.  States are Initial, InNativeRun(name) and
InJavaRun; a managed frame moves to InJavaRun and clears the skip marker; a
native frame whose name equals the current InNativeRun name is marked skip,
any other native frame enters InNativeRun(name) and is kept. -/
inductive FrameMode
  | initial
  | inNativeRun (name : String)
  | inJavaRun
deriving DecidableEq

/-- See `FrameMode`. -/
structure StackState where
  mode : FrameMode
  skip : Bool
deriving DecidableEq

/-- The fresh per-trace state (`StackState stack_state;` in `AddTrace`). -/
def initialStackState : StackState := ⟨FrameMode.initial, false⟩

/-- Modelled from the spec (§4.6): transition on a managed frame. -/
def StackState.JavaFrame (_ : StackState) : StackState :=
  ⟨FrameMode.inJavaRun, false⟩

/-- Modelled from the spec (§4.6): transition on a native frame. -/
def StackState.NativeFrame (s : StackState) (name : String) : StackState :=
  match s.mode with
  | FrameMode.inNativeRun n =>
    if n = name then ⟨FrameMode.inNativeRun n, true⟩
    else ⟨FrameMode.inNativeRun name, false⟩
  | _ => ⟨FrameMode.inNativeRun name, false⟩

/-- Modelled from the spec (§4.6): whether the last frame was marked as a
redundant repeat. -/
def StackState.SkipFrame (s : StackState) : Bool := s.skip

/-- The symbol information filled in by the external
`GetStackFrameElements` (jvmti symbol resolution, outside src/). -/
structure StackFrameElements where
  file_name : String
  class_name : String
  method_name : String
  signature : String
  line_number : Int

/-- Modelled from the spec (§1, external collaborators): resolution of
managed frames (`GetStackFrameElements`) and of native frames
(`native_cache_->GetFunctionName` / `GetLocation`).  The native cache
renders a name for a frame and interns a location for it through the
builder's `LocationBuilder`; `nativeLocInfo` is the rendered-identity key it
uses. -/
structure ExternalEnv where
  frameElements : JVMPI_CallFrame → StackFrameElements
  nativeName : JVMPI_CallFrame → String
  nativeLocInfo : JVMPI_CallFrame → LocationInfo

/-- Replace the element at an index, leaving the list unchanged when the
index is out of range. -/
def listModify (f : α → α) : Nat → List α → List α
  | _, [] => []
  | 0, a :: r => f a :: r
  | n + 1, a :: r => a :: listModify f n r

/-- `ProfileProtoBuilder::UpdateSampleValues` (lines 109-113): add `count`
to `value[kCount]` and `size` to `value[kMetric]`. -/
def UpdateSampleValues (s : Sample) (count size : Int) : Sample :=
  { s with value := ((s.value.set 0 (s.value.getD 0 0 + count)).set 1
      (s.value.getD 1 0 + size)) }

/-- `ProfileProtoBuilder::InitSampleValues` (lines 120-124): append the two
values to the fresh sample's value vector. -/
def InitSampleValues (count metric : Int) (s : Sample) : Sample :=
  { s with value := s.value ++ [count, metric] }

/-- Append one location id to the sample at `idx`
(`sample->add_location_id(...)`). -/
def addLocId (st : BuilderState) (idx : Nat) (lid : Nat) : BuilderState :=
  { st with samples :=
      (listModify (fun s => { s with location_id := s.location_id ++ [lid] }) idx
        st.samples) }

/-- Placeholder location used to read fields of a location that provably
exists; never reachable on in-range indices. -/
def dummyLocation : Location := ⟨0, [], 0⟩

/-- `ProfileProtoBuilder::AddJavaInfo` (lines 157-188). -/
def AddJavaInfo (env : ExternalEnv) (st : BuilderState) (idx : Nat)
    (frame : JVMPI_CallFrame) (ss : StackState) : BuilderState × StackState :=
  let ss1 := ss.JavaFrame
  if frame.method_id = 0 then
    let r := LocationFor st "" "Unknown method" "" 0
    (addLocId r.1 idx (r.1.locations.getD r.2 dummyLocation).id, ss1)
  else
    let e := env.frameElements frame
    let signature := FixMethodParameters e.signature
    let full_method_name := e.class_name ++ "." ++ e.method_name ++ signature
    let r := LocationFor st e.class_name full_method_name e.file_name e.line_number
    (addLocId r.1 idx (r.1.locations.getD r.2 dummyLocation).id, ss1)

/-- `ProfileProtoBuilder::AddNativeInfo` (lines 190-207): render the name
and intern the location through the cache, feed the name to the state
machine, and only when the frame is not a redundant repeat stamp the
location's address with the raw frame pointer and append the location id. -/
def AddNativeInfo (env : ExternalEnv) (st : BuilderState) (idx : Nat)
    (frame : JVMPI_CallFrame) (ss : StackState) : BuilderState × StackState :=
  let function_name := env.nativeName frame
  let info := env.nativeLocInfo frame
  let r := LocationFor st info.class_name info.function_name info.file_name
    info.line_number
  let ss1 := ss.NativeFrame function_name
  if ss1.SkipFrame then (r.1, ss1)
  else
    let st2 := { r.1 with locations :=
      (listModify (fun loc => { loc with address := frame.method_id }) r.2
        r.1.locations) }
    (addLocId st2 idx (st2.locations.getD r.2 dummyLocation).id, ss1)

/-- Modelled from the spec (§4.1 step 3): `SkipTopNativeFrames` is declared
in a header that is not under src/; it skips the leading run of native
frames produced by the capture mechanism itself (a stateless prefix trim
independent of the state machine). -/
def SkipTopNativeFrames (t : JVMPI_CallTrace) : Nat :=
  (t.frames.takeWhile (fun f => f.lineno == kNativeFrameLineNum)).length

/-- The body of the frame loop in `AddTrace` (lines 146-154): frames whose
line number is the native sentinel go to the native handler, all others to
the managed handler. -/
def stepFrame (env : ExternalEnv) (idx : Nat) (p : BuilderState × StackState)
    (frame : JVMPI_CallFrame) : BuilderState × StackState :=
  if frame.lineno = kNativeFrameLineNum then AddNativeInfo env p.1 idx frame p.2
  else AddJavaInfo env p.1 idx frame p.2

/-- `ProfileProtoBuilder::AddTrace` (lines 126-155): on a raw-key hit,
accumulate into the existing sample and stop; otherwise append a fresh
sample, register it under the raw key, initialize its values, and walk the
frames after the skipped prefix. -/
def AddTrace (env : ExternalEnv) (st : BuilderState) (t : ProfileStackTrace)
    (count : Int) : BuilderState :=
  match traceFind st.traceMap t.trace with
  | some idx =>
    { st with samples :=
        (listModify (fun s => UpdateSampleValues s count t.metric_value) idx
          st.samples) }
  | none =>
    let idx := st.samples.length
    let st1 := { st with samples := st.samples ++ [(⟨[], []⟩ : Sample)],
                         traceMap := st.traceMap ++ [(t.trace, idx)] }
    let st2 := { st1 with samples :=
        (listModify (InitSampleValues count t.metric_value) idx st1.samples) }
    let first_frame := SkipTopNativeFrames t.trace
    ((t.trace.frames.drop first_frame).foldl (stepFrame env idx)
      (st2, initialStackState)).1

/-- `ProfileProtoBuilder::AddArtificialTrace` (lines 58-67): intern a
location under `(name, name, "", -1)` and append a fresh sample with that
single location id and values `[count, count * sampling_rate]`.  The sample
is never registered in the raw-trace table. -/
def AddArtificialTrace (st : BuilderState) (name : String) (count : Int)
    (sampling_rate : Int) : BuilderState :=
  let r := LocationFor st name name "" (-1)
  { r.1 with samples := (r.1.samples ++
      [⟨[(r.1.locations.getD r.2 dummyLocation).id], [count, count * sampling_rate]⟩]) }

/-! ## The sampling correction (profile_proto_builder.cc lines 319-335) -/

/-- The denominator `1 - exp(-(metric/count)/rate)` of the correction
formula, with the C++ `double` arithmetic idealized as real arithmetic. -/
noncomputable def samplingDenominator (rate count metric_value : Int) : ℝ :=
  1 - Real.exp (-((metric_value : ℝ) / (count : ℝ)) / (rate : ℝ))

/-- `CalculateSamplingRatio` (profile_proto_builder.cc lines 319-335):
`1.0` when `rate <= 1` or `count < 1`, otherwise the Poisson correction
`1 / (1 - exp(-(metric/count)/rate))`. -/
noncomputable def CalculateSamplingRatio (rate count metric_value : Int) : ℝ :=
  if rate ≤ 1 then 1.0
  else if count < 1 then 1.0
  else 1 / samplingDenominator rate count metric_value

/-! ## Claim harness definitions -/

/-- A sequence of `LocationFor` calls over one builder lifetime, returning
the final state and the location id each call's returned location reports
(`location->id()` in the C++). -/
def runLocationFor (st : BuilderState) : List LocationInfo → BuilderState × List Nat
  | [] => (st, [])
  | k :: ks =>
    let r := LocationFor st k.class_name k.function_name k.file_name k.line_number
    let rest := runLocationFor r.1 ks
    (rest.1, (r.1.locations.getD r.2 dummyLocation).id :: rest.2)

/-- Every index stored in the location dedup table points into the location
list.  Holds for every state reachable from `emptyBuilder`. -/
def LocMapBounded (st : BuilderState) : Prop :=
  ∀ p ∈ st.locMap, p.2 < st.locations.length

/-- The internal invariant of the location table: indices in range, no index
stored twice, and the location at index `i` carries id `i + 1`. -/
def LocInv (st : BuilderState) : Prop :=
  LocMapBounded st ∧ (st.locMap.map Prod.snd).Nodup ∧
    ∀ p ∈ st.locMap, ∀ loc, st.locations.get? p.2 = some loc → loc.id = p.2 + 1

/-- Well-formedness used by the `AddTrace` claims: the trace table points
into the sample list and every sample's value vector has the two configured
entries.  Holds for every state reachable from `emptyBuilder`. -/
def BuilderWF (st : BuilderState) : Prop :=
  (∀ p ∈ st.traceMap, p.2 < st.samples.length) ∧
    ∀ s ∈ st.samples, s.value.length = 2

/-- `l` contains no occurrence of the trigger followed by a suffix
character: every decomposition around the trigger continues with a
character outside the suffix set (or ends).  This is the normal form
`SimplifySuffixedName` establishes for triggers without self-overlap. -/
def NoTrigRun (trig : List Char) (suff : Char → Bool) (l : List Char) : Prop :=
  ∀ a b, l = a ++ trig ++ b → List.dropWhile suff b = b

/-- No nonempty proper suffix of `t` is a prefix of `t`; occurrences of such
a trigger in a string never overlap.  Holds for the three reflection
triggers. -/
def NoSelfOverlap (t : List Char) : Prop :=
  ∀ p < t.length, 0 < p → ¬ (t.drop p) <+: t

/-- A small concrete environment used to instantiate theorems about the
external collaborators on concrete inputs. -/
def sampleEnv : ExternalEnv :=
  ⟨fun _ => ⟨"f", "c", "m", "(I)V", 3⟩, fun f => "n" ++ toString f.method_id,
    fun f => ⟨"", "n" ++ toString f.method_id, "", 0⟩⟩

/-! ## Helper lemmas and claim theorems -/

/-- The erased-run argument of the trigger branch is shorter than the tail. -/
theorem ssn_drop_len (trig : List Char) (suff : Char → Bool) (c : Char) (r : List Char)
    (hne : trig ≠ []) :
    (List.dropWhile suff ((c :: r).drop trig.length)).length ≤ r.length := by
  have htl : 1 ≤ trig.length := by
    cases trig with
    | nil => exact absurd rfl hne
    | cons a t => simp
  calc (List.dropWhile suff ((c :: r).drop trig.length)).length
      ≤ ((c :: r).drop trig.length).length :=
        (List.dropWhile_suffix suff).length_le
    _ = (c :: r).length - trig.length := by rw [List.length_drop]
    _ ≤ (c :: r).length - 1 := Nat.sub_le_sub_left htl _
    _ = r.length := by simp

theorem ssnGo_fuel (trig : List Char) (suff : Char → Bool) :
    ∀ (f1 f2 : Nat) (l : List Char), l.length ≤ f1 → l.length ≤ f2 →
      ssnGo trig suff f1 l = ssnGo trig suff f2 l := by
  intro f1
  induction f1 with
  | zero =>
    intro f2 l hl _
    have : l = [] := List.eq_nil_of_length_eq_zero (Nat.le_zero.mp hl)
    subst this
    cases f2 <;> rfl
  | succ n ih =>
    intro f2 l h1 h2
    match f2, l with
    | 0, l =>
      have : l = [] := List.eq_nil_of_length_eq_zero (Nat.le_zero.mp h2)
      subst this
      rfl
    | m + 1, [] => rfl
    | m + 1, c :: r =>
      rw [ssnGo, ssnGo]
      by_cases h : trig.isPrefixOf (c :: r) ∧ trig ≠ []
      · rw [if_pos h, if_pos h]
        have hlen := ssn_drop_len trig suff c r h.2
        rw [ih m _ (le_trans hlen (Nat.le_of_succ_le_succ h1))
          (le_trans hlen (Nat.le_of_succ_le_succ h2))]
      · rw [if_neg h, if_neg h]
        rw [ih m r (Nat.le_of_succ_le_succ h1) (Nat.le_of_succ_le_succ h2)]

/-- Equation: the empty string is returned unchanged. -/
theorem ssn_nil (trig : List Char) (suff : Char → Bool) :
    SimplifySuffixedName trig suff [] = [] := rfl

/-- Equation: when the trigger is a prefix, it is kept and the following run
of suffix characters is erased before continuing. -/
theorem ssn_pos (trig : List Char) (suff : Char → Bool) (l : List Char)
    (hne : trig ≠ []) (hp : trig.isPrefixOf l) :
    SimplifySuffixedName trig suff l =
      trig ++ SimplifySuffixedName trig suff (List.dropWhile suff (l.drop trig.length)) := by
  match l with
  | [] =>
    cases trig with
    | nil => exact absurd rfl hne
    | cons a t => simp [List.isPrefixOf] at hp
  | c :: r =>
    rw [SimplifySuffixedName, SimplifySuffixedName]
    simp only [List.length_cons]
    rw [ssnGo, if_pos ⟨hp, hne⟩]
    congr 1
    exact ssnGo_fuel trig suff r.length _ _ (ssn_drop_len trig suff c r hne)
      (Nat.le_refl _)

/-- Equation: when the trigger is not a prefix, one character is copied. -/
theorem ssn_neg (trig : List Char) (suff : Char → Bool) (c : Char) (r : List Char)
    (h : ¬ (trig.isPrefixOf (c :: r) ∧ trig ≠ [])) :
    SimplifySuffixedName trig suff (c :: r) =
      c :: SimplifySuffixedName trig suff r := by
  rw [SimplifySuffixedName, SimplifySuffixedName]
  simp only [List.length_cons]
  rw [ssnGo, if_neg h]

/-- C7 counterexample: the claimed output `"com.foo.Bar$$.invoke"` for the
CGLIB example is not what the code produces — `SimplifySuffixedName` only
erases the hexadecimal run after each `$$`, so the `FastClassByCGLIB` text
between the two `$$` markers survives. -/
theorem c7_counterexample :
    SimplifyFunctionName "com.foo.Bar$$FastClassByCGLIB$$ab12ef34.invoke" ≠
      "com.foo.Bar$$.invoke" := by decide

/-- C7 (amended): `SimplifyFunctionName` maps the CGLIB example to
`"com.foo.Bar$$FastClassByCGLIB$$.invoke"` (only the hex suffix after `$$`
is erased); the lambda and reflection examples map exactly as claimed. -/
theorem c7_simplify_function_name_examples :
    SimplifyFunctionName "com.foo.Bar$$FastClassByCGLIB$$ab12ef34.invoke" =
        "com.foo.Bar$$FastClassByCGLIB$$.invoke" ∧
      SimplifyFunctionName "com.foo.Baz$$Lambda$197.1849072452.run" =
        "com.foo.Baz$$Lambda$.run" ∧
      SimplifyFunctionName "sun.reflect.GeneratedMethodAccessor42.invoke" =
        "sun.reflect.GeneratedMethodAccessor.invoke" := by
  exact ⟨by decide, by decide, by decide⟩

/-- C4 counterexample: the managed-frame pipeline `FixMethodParameters`
calls `ParseMethodTypeSignature`, which parses only the parameter list, so
the produced string has no `"void "` return-type part. -/
theorem c4_counterexample :
    FixMethodParameters "(I[Ljava/lang/String;)V" ≠
      "void (int, java.lang.String[])" := by decide

/-- C4 (amended): `FixMethodParameters` on `"(I[Ljava/lang/String;)V"`
produces `"(int, java.lang.String[])"` — the parameter list only, the
return type is dropped.  The spec's expected string
`"void (int, java.lang.String[])"` is what the `WithReturn` pipeline
(`PrettyPrintSignature`, which goes through
`ParseMethodTypeSignatureWithReturn`) produces on the same descriptor. -/
theorem c4_fix_method_parameters :
    FixMethodParameters "(I[Ljava/lang/String;)V" = "(int, java.lang.String[])" ∧
      PrettyPrintSignature "(I[Ljava/lang/String;)V" =
        "void (int, java.lang.String[])" := by
  exact ⟨by decide, by decide⟩

/-- Shared helper: the guards of `CalculateSamplingRatio` return `1.0` on
degenerate inputs. -/
theorem samplingRatio_default :
    ∀ rate count metric_value : Int, rate ≤ 1 ∨ count < 1 →
      CalculateSamplingRatio rate count metric_value = 1 := by
  intro rate count metric_value h
  rcases h with h | h
  · rw [CalculateSamplingRatio, if_pos h]
    norm_num
  · rw [CalculateSamplingRatio]
    by_cases h1 : rate ≤ 1
    · rw [if_pos h1]; norm_num
    · rw [if_neg h1, if_pos h]; norm_num

/-- C6: `CalculateSamplingRatio` returns exactly `1.0` whenever
`rate ≤ 1` or `count < 1` (in particular for rate 0 and 1), and otherwise
returns `1 / (1 - exp(-(metric/count)/rate))`. -/
theorem c6_calculate_sampling_ratio :
    (∀ rate count metric_value : Int, rate ≤ 1 ∨ count < 1 →
      CalculateSamplingRatio rate count metric_value = 1) ∧
    (∀ rate count metric_value : Int, 1 < rate → 1 ≤ count →
      CalculateSamplingRatio rate count metric_value =
        1 / (1 - Real.exp (-((metric_value : ℝ) / (count : ℝ)) / (rate : ℝ)))) := by
  refine ⟨samplingRatio_default, ?_⟩
  intro rate count metric_value h1 h2
  rw [CalculateSamplingRatio, if_neg (not_le.mpr h1), if_neg (not_lt.mpr h2),
    samplingDenominator]

/-- C6 witness at concrete inputs. -/
theorem c6_witness :
    CalculateSamplingRatio 0 5 7 = 1 ∧ CalculateSamplingRatio 1 (-3) 2 = 1 ∧
      CalculateSamplingRatio 2 1 3 =
        1 / (1 - Real.exp (-(((3 : Int) : ℝ) / ((1 : Int) : ℝ)) / ((2 : Int) : ℝ))) :=
  ⟨c6_calculate_sampling_ratio.1 0 5 7 (Or.inl (by norm_num)),
    c6_calculate_sampling_ratio.1 1 (-3) 2 (Or.inl (by norm_num)),
    c6_calculate_sampling_ratio.2 2 1 3 (by norm_num) (by norm_num)⟩

/-- C3 counterexample: at `rate = 2 > 1`, `count = 1 ≥ 1`, `metric = 0`
the denominator `1 - exp(-(metric/count)/rate)` is exactly zero, so the
correction formula does divide by zero there, contrary to the claim that
the denominator is nonzero "including the case metric = 0". -/
theorem c3_counterexample :
    (1 : Int) < 2 ∧ (1 : Int) ≤ 1 ∧ samplingDenominator 2 1 0 = 0 := by
  refine ⟨by norm_num, le_refl 1, ?_⟩
  rw [samplingDenominator]
  norm_num

/-- C3 (amended): degenerate inputs (`rate ≤ 1` or `count < 1`) make the
ratio default to `1.0`; for `rate > 1` and `count ≥ 1` the denominator is
nonzero whenever `metric ≠ 0`, but at `metric = 0` the guards do not fire
and the denominator is exactly zero, so that division is by zero. -/
theorem c3_sampling_division_safety :
    (∀ rate count metric_value : Int, rate ≤ 1 ∨ count < 1 →
      CalculateSamplingRatio rate count metric_value = 1) ∧
    (∀ rate count metric_value : Int, 1 < rate → 1 ≤ count → metric_value ≠ 0 →
      samplingDenominator rate count metric_value ≠ 0) ∧
    (∀ rate count : Int, samplingDenominator rate count 0 = 0) := by
  refine ⟨samplingRatio_default, ?_, ?_⟩
  · intro rate count metric_value h1 h2 hm
    rw [samplingDenominator]
    intro heq
    have hexp : Real.exp (-((metric_value : ℝ) / (count : ℝ)) / (rate : ℝ)) = 1 := by
      linarith
    rw [Real.exp_eq_one_iff] at hexp
    have hc : ((count : ℝ)) ≠ 0 := by
      have : (1 : ℝ) ≤ (count : ℝ) := by exact_mod_cast h2
      linarith
    have hr : ((rate : ℝ)) ≠ 0 := by
      have : (1 : ℝ) < (rate : ℝ) := by exact_mod_cast h1
      linarith
    have hm' : ((metric_value : ℝ)) ≠ 0 := Int.cast_ne_zero.mpr hm
    have : -((metric_value : ℝ) / (count : ℝ)) ≠ 0 :=
      neg_ne_zero.mpr (div_ne_zero hm' hc)
    exact (div_ne_zero this hr) hexp
  · intro rate count
    rw [samplingDenominator]
    norm_num

/-- C3 witness at concrete inputs. -/
theorem c3_witness :
    CalculateSamplingRatio 1 9 9 = 1 ∧ samplingDenominator 3 2 5 ≠ 0 ∧
      samplingDenominator 7 4 0 = 0 :=
  ⟨c3_sampling_division_safety.1 1 9 9 (Or.inl (le_refl 1)),
    c3_sampling_division_safety.2.1 3 2 5 (by norm_num) (by norm_num) (by norm_num),
    c3_sampling_division_safety.2.2 7 4⟩

/-! ### Location table lemmas -/

/-- The source's `LocationInfoEquals` coincides with structural equality. -/
theorem locationInfoEquals_iff (i1 i2 : LocationInfo) :
    LocationInfoEquals i1 i2 = true ↔ i1 = i2 := by
  cases i1
  cases i2
  simp [LocationInfoEquals, LocationInfo.mk.injEq, and_assoc]

theorem functionIdFor_fields (st : BuilderState) (n f : String) :
    (FunctionIdFor st n f).1.samples = st.samples ∧
      (FunctionIdFor st n f).1.locations = st.locations ∧
      (FunctionIdFor st n f).1.locMap = st.locMap ∧
      (FunctionIdFor st n f).1.traceMap = st.traceMap := by
  rw [FunctionIdFor]
  split <;> exact ⟨rfl, rfl, rfl, rfl⟩

theorem locationFor_samples (st : BuilderState) (a b c : String) (d : Int) :
    (LocationFor st a b c d).1.samples = st.samples := by
  rw [LocationFor]
  split
  · rfl
  · simp [(functionIdFor_fields st b c).1]

theorem locationFor_traceMap (st : BuilderState) (a b c : String) (d : Int) :
    (LocationFor st a b c d).1.traceMap = st.traceMap := by
  rw [LocationFor]
  split
  · rfl
  · simp [(functionIdFor_fields st b c).2.2.2]

/-- On a key hit, `LocationFor` returns the state unchanged together with
the stored index. -/
theorem locationFor_idem (st : BuilderState) (a b c : String) (d : Int) (idx : Nat)
    (h : locFind st.locMap ⟨a, b, c, d⟩ = some idx) :
    LocationFor st a b c d = (st, idx) := by
  rw [LocationFor, h]

theorem locFind_none_iff (m : List (LocationInfo × Nat)) (info : LocationInfo) :
    locFind m info = none ↔ m.find? (fun p => LocationInfoEquals p.1 info) = none := by
  rw [locFind, Option.map_eq_none']

/-- Appending an entry does not disturb an existing hit. -/
theorem locFind_mono (m : List (LocationInfo × Nat)) (e : LocationInfo × Nat)
    (info : LocationInfo) (idx : Nat) (h : locFind m info = some idx) :
    locFind (m ++ [e]) info = some idx := by
  rw [locFind] at h ⊢
  rcases Option.map_eq_some'.mp h with ⟨p, hp, hsnd⟩
  rw [List.find?_append, hp]
  simpa using hsnd

/-- Registering a fresh key makes it found with the registered index. -/
theorem locFind_self_append (m : List (LocationInfo × Nat)) (info : LocationInfo)
    (n : Nat) (h : locFind m info = none) :
    locFind (m ++ [(info, n)]) info = some n := by
  rw [locFind, List.find?_append, (locFind_none_iff m info).mp h]
  simp [(locationInfoEquals_iff info info).mpr rfl]

/-- After any `LocationFor` call, its own key is found with the returned
index. -/
theorem locationFor_lookup_after (st : BuilderState) (a b c : String) (d : Int) :
    locFind (LocationFor st a b c d).1.locMap ⟨a, b, c, d⟩ =
      some (LocationFor st a b c d).2 := by
  rw [LocationFor]
  cases h : locFind st.locMap ⟨a, b, c, d⟩ with
  | some idx => exact h
  | none =>
    simp only
    rw [(functionIdFor_fields st b c).2.2.1]
    exact locFind_self_append _ _ _ h

/-- `LocationFor` preserves existing hits. -/
theorem locationFor_lookup_mono (st : BuilderState) (a b c : String) (d : Int)
    (k : LocationInfo) (i : Nat) (h : locFind st.locMap k = some i) :
    locFind (LocationFor st a b c d).1.locMap k = some i := by
  rw [LocationFor]
  cases hf : locFind st.locMap ⟨a, b, c, d⟩ with
  | some idx => exact h
  | none =>
    simp only
    rw [(functionIdFor_fields st b c).2.2.1]
    exact locFind_mono _ _ _ _ h

theorem addArtificialTrace_samples (st : BuilderState) (name : String)
    (count sampling_rate : Int) :
    (AddArtificialTrace st name count sampling_rate).samples =
      st.samples ++ [⟨[((LocationFor st name name "" (-1)).1.locations.getD
        (LocationFor st name name "" (-1)).2 dummyLocation).id],
        [count, count * sampling_rate]⟩] := by
  rw [AddArtificialTrace]
  simp [locationFor_samples]

theorem addArtificialTrace_locMap (st : BuilderState) (name : String)
    (count sampling_rate : Int) :
    (AddArtificialTrace st name count sampling_rate).locMap =
      (LocationFor st name name "" (-1)).1.locMap := by
  rw [AddArtificialTrace]

theorem addArtificialTrace_locations (st : BuilderState) (name : String)
    (count sampling_rate : Int) :
    (AddArtificialTrace st name count sampling_rate).locations =
      (LocationFor st name name "" (-1)).1.locations := by
  rw [AddArtificialTrace]

/-- C10: `AddArtificialTrace` always appends one fresh sample holding
exactly one location id and the value vector `[count, count * rate]`; it
never touches the raw-trace table, and a second call with identical
arguments appends a second separate sample carrying the same interned
location id instead of merging. -/
theorem c10_artificial_trace :
    ∀ (st : BuilderState) (name : String) (count sampling_rate : Int),
      (∃ lid,
        (AddArtificialTrace st name count sampling_rate).samples =
          st.samples ++ [⟨[lid], [count, count * sampling_rate]⟩] ∧
        (AddArtificialTrace (AddArtificialTrace st name count sampling_rate)
            name count sampling_rate).samples =
          st.samples ++ [⟨[lid], [count, count * sampling_rate]⟩,
            ⟨[lid], [count, count * sampling_rate]⟩]) ∧
      (AddArtificialTrace st name count sampling_rate).traceMap = st.traceMap := by
  intro st name count sampling_rate
  refine ⟨⟨((LocationFor st name name "" (-1)).1.locations.getD
    (LocationFor st name name "" (-1)).2 dummyLocation).id, ?_, ?_⟩, ?_⟩
  · exact addArtificialTrace_samples st name count sampling_rate
  · have hidem : LocationFor (AddArtificialTrace st name count sampling_rate)
        name name "" (-1) =
        (AddArtificialTrace st name count sampling_rate,
          (LocationFor st name name "" (-1)).2) := by
      apply locationFor_idem
      rw [addArtificialTrace_locMap]
      exact locationFor_lookup_after st name name "" (-1)
    rw [addArtificialTrace_samples, hidem]
    simp only [addArtificialTrace_locations,
      addArtificialTrace_samples st name count sampling_rate, List.append_assoc]
    rfl
  · rw [AddArtificialTrace]
    simp [locationFor_traceMap]

/-! ### Location id uniqueness (claim C2) -/

theorem locFind_mem (m : List (LocationInfo × Nat)) (k : LocationInfo) (i : Nat)
    (h : locFind m k = some i) : (k, i) ∈ m := by
  rw [locFind] at h
  rcases Option.map_eq_some'.mp h with ⟨p, hp, h2⟩
  have hpred := List.find?_some hp
  simp only at hpred
  have hpk : p.1 = k := (locationInfoEquals_iff p.1 k).mp hpred
  have hm := List.mem_of_find?_eq_some hp
  have : p = (k, i) := by
    cases p
    simp only [Prod.mk.injEq]
    exact ⟨hpk, h2⟩
  rw [this] at hm
  exact hm

theorem snd_nodup_inj :
    ∀ (l : List (LocationInfo × Nat)), (l.map Prod.snd).Nodup →
      ∀ p q, p ∈ l → q ∈ l → p.2 = q.2 → p = q := by
  intro l
  induction l with
  | nil =>
    intro _ p q hp
    simp at hp
  | cons a t ih =>
    intro hnd p q hp hq heq
    rw [List.map_cons, List.nodup_cons] at hnd
    rcases List.mem_cons.mp hp with hp | hp <;> rcases List.mem_cons.mp hq with hq | hq
    · rw [hp, hq]
    · exfalso
      apply hnd.1
      rw [hp] at heq
      rw [heq]
      exact List.mem_map_of_mem Prod.snd hq
    · exfalso
      apply hnd.1
      rw [hq] at heq
      rw [← heq]
      exact List.mem_map_of_mem Prod.snd hp
    · exact ih hnd.2 p q hp hq heq

/-- Under the table invariant, two keys found at the same index are the same
key. -/
theorem locFind_inj (st : BuilderState) (h : LocInv st) (k1 k2 : LocationInfo)
    (i : Nat) (h1 : locFind st.locMap k1 = some i)
    (h2 : locFind st.locMap k2 = some i) : k1 = k2 := by
  have := snd_nodup_inj st.locMap h.2.1 (k1, i) (k2, i) (locFind_mem _ _ _ h1)
    (locFind_mem _ _ _ h2) rfl
  exact congrArg Prod.fst this

/-- `LocationFor` preserves the table invariant, and the id read from the
returned location is always the returned index plus one. -/
theorem locationFor_inv (st : BuilderState) (a b c : String) (d : Int)
    (h : LocInv st) :
    LocInv (LocationFor st a b c d).1 ∧
      ((LocationFor st a b c d).1.locations.getD (LocationFor st a b c d).2
        dummyLocation).id = (LocationFor st a b c d).2 + 1 := by
  cases hf : locFind st.locMap ⟨a, b, c, d⟩ with
  | some idx =>
    rw [locationFor_idem st a b c d idx hf]
    refine ⟨h, ?_⟩
    have hmem := locFind_mem _ _ _ hf
    have hlt : idx < st.locations.length := h.1 _ hmem
    have hget : st.locations[idx]? = some st.locations[idx] :=
      List.getElem?_eq_getElem hlt
    have := h.2.2 _ hmem st.locations[idx] (by simp)
    simp only [List.getD_eq_getElem?_getD, hget]
    exact this
  | none =>
    rw [LocationFor, hf]
    simp only
    obtain ⟨-, hlocs, hmap, -⟩ := functionIdFor_fields st b c
    rw [hlocs, hmap]
    constructor
    · refine ⟨?_, ?_, ?_⟩
      · intro p hp
        simp only [List.length_append, List.length_cons, List.length_nil]
        rcases List.mem_append.mp hp with hp | hp
        · exact Nat.lt_succ_of_lt (h.1 _ hp)
        · simp only [List.mem_singleton] at hp
          subst hp
          exact Nat.lt_succ_self _
      · rw [List.map_append]
        simp only [List.map_cons, List.map_nil]
        rw [List.nodup_append]
        refine ⟨h.2.1, List.nodup_singleton _, ?_⟩
        intro x hx
        have hxlt : x < st.locations.length := by
          rcases List.mem_map.mp hx with ⟨p, hp, hxp⟩
          rw [← hxp]
          exact h.1 _ hp
        simp only [List.mem_singleton]
        intro hcon
        rw [hcon] at hxlt
        exact Nat.lt_irrefl _ hxlt
      · intro p hp loc' hget
        rcases List.mem_append.mp hp with hp | hp
        · have hlt : p.2 < st.locations.length := h.1 _ hp
          rw [List.get?_eq_getElem?, List.getElem?_append, if_pos hlt] at hget
          exact h.2.2 _ hp loc' (by simpa using hget)
        · simp only [List.mem_singleton] at hp
          subst hp
          rw [List.get?_eq_getElem?] at hget
          simp only [List.getElem?_concat_length] at hget
          have hl : loc' =
              (⟨st.locations.length + 1, [((FunctionIdFor st b c).2, d)], 0⟩ :
                Location) := by
            injection hget with hh
            exact hh.symm
          rw [hl]
    · simp only [List.getD_eq_getElem?_getD, List.getElem?_concat_length]
      rfl

/-- `LocInv` holds for a freshly constructed builder. -/
theorem locInv_empty : LocInv emptyBuilder := by
  refine ⟨?_, ?_, ?_⟩ <;> simp [LocMapBounded, emptyBuilder]

theorem runLocationFor_spec :
    ∀ (calls : List LocationInfo) (st : BuilderState), LocInv st →
      LocInv (runLocationFor st calls).1 ∧
      (∀ k i, locFind st.locMap k = some i →
        locFind (runLocationFor st calls).1.locMap k = some i) ∧
      (runLocationFor st calls).2.length = calls.length ∧
      (∀ j, j < calls.length →
        ∃ m, locFind (runLocationFor st calls).1.locMap
            (calls.getD j ⟨"", "", "", 0⟩) = some m ∧
          (runLocationFor st calls).2.getD j 0 = m + 1) := by
  intro calls
  induction calls with
  | nil =>
    intro st h
    refine ⟨h, fun k i hk => hk, rfl, ?_⟩
    intro j hj
    exact absurd hj (Nat.not_lt_zero j)
  | cons k ks ih =>
    intro st h
    rw [runLocationFor]
    simp only
    obtain ⟨hinv, hid⟩ :=
      locationFor_inv st k.class_name k.function_name k.file_name k.line_number h
    obtain ⟨hinv', hmono', hlen', hspec'⟩ :=
      ih (LocationFor st k.class_name k.function_name k.file_name k.line_number).1 hinv
    refine ⟨hinv', ?_, by simpa using hlen', ?_⟩
    · intro k' i hk'
      exact hmono' k' i
        (locationFor_lookup_mono st k.class_name k.function_name k.file_name
          k.line_number k' i hk')
    · intro j hj
      match j with
      | 0 =>
        refine ⟨(LocationFor st k.class_name k.function_name k.file_name
          k.line_number).2, ?_, ?_⟩
        · have hself := locationFor_lookup_after st k.class_name k.function_name
            k.file_name k.line_number
          have : (⟨k.class_name, k.function_name, k.file_name, k.line_number⟩ :
              LocationInfo) = k := by cases k; rfl
          rw [this] at hself
          simpa using hmono' k _ hself
        · simpa using hid
      | j' + 1 =>
        have hj' : j' < ks.length := by simpa using Nat.lt_of_succ_lt_succ hj
        obtain ⟨m, hm1, hm2⟩ := hspec' j' hj'
        exact ⟨m, by simpa using hm1, by simpa using hm2⟩

/-- C2: over any sequence of `LocationFor` calls on one builder, two calls
receive the same location id exactly when their
(class, function, file, line) keys are equal: identical keys always return
the identical id, and keys differing in at least one field always return
distinct ids. -/
theorem c2_location_for_ids :
    ∀ (calls : List LocationInfo) (i j : Nat), i < calls.length → j < calls.length →
      (calls.getD i ⟨"", "", "", 0⟩ = calls.getD j ⟨"", "", "", 0⟩ ↔
        (runLocationFor emptyBuilder calls).2.getD i 0 =
          (runLocationFor emptyBuilder calls).2.getD j 0) := by
  intro calls i j hi hj
  obtain ⟨hinv, -, -, hspec⟩ := runLocationFor_spec calls emptyBuilder locInv_empty
  obtain ⟨mi, hmi, hvi⟩ := hspec i hi
  obtain ⟨mj, hmj, hvj⟩ := hspec j hj
  constructor
  · intro hkey
    rw [hkey] at hmi
    rw [hmi] at hmj
    rw [hvi, hvj, Option.some.inj hmj]
  · intro hval
    rw [hvi, hvj] at hval
    have hm : mi = mj := Nat.succ_injective hval
    rw [hm] at hmi
    exact locFind_inj _ hinv _ _ mj hmi hmj

/-- C2 witness: a concrete three-call sequence with a repeated key. -/
theorem c2_witness :
    ([⟨"a", "b", "c", 1⟩, ⟨"x", "y", "z", 2⟩, ⟨"a", "b", "c", 1⟩] :
        List LocationInfo).getD 0 ⟨"", "", "", 0⟩ =
      ([⟨"a", "b", "c", 1⟩, ⟨"x", "y", "z", 2⟩, ⟨"a", "b", "c", 1⟩] :
        List LocationInfo).getD 2 ⟨"", "", "", 0⟩ ↔
    (runLocationFor emptyBuilder
        [⟨"a", "b", "c", 1⟩, ⟨"x", "y", "z", 2⟩, ⟨"a", "b", "c", 1⟩]).2.getD 0 0 =
      (runLocationFor emptyBuilder
        [⟨"a", "b", "c", 1⟩, ⟨"x", "y", "z", 2⟩, ⟨"a", "b", "c", 1⟩]).2.getD 2 0 :=
  c2_location_for_ids
    [⟨"a", "b", "c", 1⟩, ⟨"x", "y", "z", 2⟩, ⟨"a", "b", "c", 1⟩] 0 2
    (by decide) (by decide)

/-! ### Trace aggregation lemmas (claim C1) -/

theorem frameEquals_iff (f1 f2 : JVMPI_CallFrame) :
    (f1.method_id == f2.method_id && f1.lineno == f2.lineno) = true ↔ f1 = f2 := by
  cases f1
  cases f2
  simp [JVMPI_CallFrame.mk.injEq, and_comm]

theorem frames_eq_of_zip :
    ∀ (l1 l2 : List JVMPI_CallFrame), l1.length = l2.length →
      (∀ p ∈ l1.zip l2,
        (p.1.method_id == p.2.method_id && p.1.lineno == p.2.lineno) = true) →
      l1 = l2 := by
  intro l1
  induction l1 with
  | nil =>
    intro l2 hlen _
    cases l2 with
    | nil => rfl
    | cons b t => simp at hlen
  | cons a t ih =>
    intro l2 hlen hall
    cases l2 with
    | nil => simp at hlen
    | cons b t2 =>
      have hhd : a = b :=
        (frameEquals_iff a b).mp (hall (a, b) (by simp [List.zip_cons_cons]))
      have htl : t = t2 := by
        apply ih t2 (by simpa using hlen)
        intro p hp
        exact hall p (by simp [List.zip_cons_cons, hp])
      rw [hhd, htl]

theorem zip_self_fst_eq_snd :
    ∀ (l : List JVMPI_CallFrame), ∀ p ∈ l.zip l, p.1 = p.2 := by
  intro l
  induction l with
  | nil => intro p hp; simp at hp
  | cons a t ih =>
    intro p hp
    rw [List.zip_cons_cons] at hp
    rcases List.mem_cons.mp hp with hp | hp
    · rw [hp]
    · exact ih p hp

/-- The source's `TraceEquals` coincides with structural equality of
traces. -/
theorem traceEquals_iff (t1 t2 : JVMPI_CallTrace) :
    TraceEquals t1 t2 = true ↔ t1 = t2 := by
  cases t1 with
  | mk l1 =>
    cases t2 with
    | mk l2 =>
      simp only [TraceEquals, Bool.and_eq_true, decide_eq_true_eq,
        List.all_eq_true, JVMPI_CallTrace.mk.injEq]
      constructor
      · rintro ⟨hlen, hall⟩
        refine frames_eq_of_zip l1 l2 hlen ?_
        intro p hp
        rw [Bool.and_eq_true]
        exact hall p hp
      · rintro rfl
        refine ⟨rfl, ?_⟩
        intro p hp
        have := (frameEquals_iff p.1 p.2).mpr (zip_self_fst_eq_snd l1 p hp)
        rw [Bool.and_eq_true] at this
        exact this

theorem traceFind_mem (m : List (JVMPI_CallTrace × Nat)) (t : JVMPI_CallTrace)
    (i : Nat) (h : traceFind m t = some i) : (t, i) ∈ m := by
  rw [traceFind] at h
  rcases Option.map_eq_some'.mp h with ⟨p, hp, h2⟩
  have hpred := List.find?_some hp
  simp only at hpred
  have hpk : p.1 = t := (traceEquals_iff p.1 t).mp hpred
  have hm := List.mem_of_find?_eq_some hp
  have : p = (t, i) := by
    cases p
    simp only [Prod.mk.injEq]
    exact ⟨hpk, h2⟩
  rw [this] at hm
  exact hm

/-- Registering a fresh trace key makes it found with the registered
index. -/
theorem traceFind_self_append (m : List (JVMPI_CallTrace × Nat))
    (t : JVMPI_CallTrace) (n : Nat) (h : traceFind m t = none) :
    traceFind (m ++ [(t, n)]) t = some n := by
  rw [traceFind] at h ⊢
  rw [List.find?_append, Option.map_eq_none'.mp h]
  simp [(traceEquals_iff t t).mpr rfl]

theorem listModify_length (f : α → α) :
    ∀ (i : Nat) (l : List α), (listModify f i l).length = l.length := by
  intro i l
  induction l generalizing i with
  | nil => cases i <;> rfl
  | cons a t ih =>
    match i with
    | 0 => rfl
    | n + 1 => simp [listModify, ih n]

theorem listModify_map (f : α → α) (g : α → β) (hg : ∀ a, g (f a) = g a) :
    ∀ (i : Nat) (l : List α), (listModify f i l).map g = l.map g := by
  intro i l
  induction l generalizing i with
  | nil => cases i <;> rfl
  | cons a t ih =>
    match i with
    | 0 => simp [listModify, hg a]
    | n + 1 => simp [listModify, ih n]

theorem listModify_get?_self (f : α → α) :
    ∀ (i : Nat) (l : List α), (listModify f i l).get? i = (l.get? i).map f := by
  intro i l
  induction l generalizing i with
  | nil => cases i <;> rfl
  | cons a t ih =>
    match i with
    | 0 => rfl
    | n + 1 => simpa [listModify] using ih n

theorem listModify_concat_length (f : α → α) (l : List α) (a : α) :
    listModify f l.length (l ++ [a]) = l ++ [f a] := by
  induction l with
  | nil => rfl
  | cons b t ih => simp [listModify, ih]

theorem addLocId_map_value (st : BuilderState) (idx lid : Nat) :
    (addLocId st idx lid).samples.map Sample.value =
      st.samples.map Sample.value := by
  show (listModify (fun s => { s with location_id := s.location_id ++ [lid] }) idx
    st.samples).map Sample.value = st.samples.map Sample.value
  exact listModify_map (fun s => { s with location_id := s.location_id ++ [lid] })
    Sample.value (fun a => rfl) idx st.samples

theorem addLocId_traceMap (st : BuilderState) (idx lid : Nat) :
    (addLocId st idx lid).traceMap = st.traceMap := rfl

/-- One step of the frame walk never changes any sample's value vector and
never touches the raw-trace table. -/
theorem stepFrame_preserves (env : ExternalEnv) (idx : Nat)
    (p : BuilderState × StackState) (fr : JVMPI_CallFrame) :
    (stepFrame env idx p fr).1.samples.map Sample.value =
        p.1.samples.map Sample.value ∧
      (stepFrame env idx p fr).1.traceMap = p.1.traceMap := by
  rw [stepFrame]
  by_cases h : fr.lineno = kNativeFrameLineNum
  · rw [if_pos h, AddNativeInfo]
    simp only
    split
    · constructor
      · exact congrArg (List.map Sample.value) (locationFor_samples _ _ _ _ _)
      · exact locationFor_traceMap _ _ _ _ _
    · constructor
      · rw [addLocId_map_value]
        exact congrArg (List.map Sample.value) (locationFor_samples _ _ _ _ _)
      · rw [addLocId_traceMap]
        exact locationFor_traceMap _ _ _ _ _
  · rw [if_neg h, AddJavaInfo]
    simp only
    split
    · constructor
      · rw [addLocId_map_value]
        exact congrArg (List.map Sample.value) (locationFor_samples _ _ _ _ _)
      · rw [addLocId_traceMap]
        exact locationFor_traceMap _ _ _ _ _
    · constructor
      · rw [addLocId_map_value]
        exact congrArg (List.map Sample.value) (locationFor_samples _ _ _ _ _)
      · rw [addLocId_traceMap]
        exact locationFor_traceMap _ _ _ _ _

/-- The whole frame walk never changes any sample's value vector and never
touches the raw-trace table. -/
theorem walk_preserves (env : ExternalEnv) (idx : Nat) :
    ∀ (frames : List JVMPI_CallFrame) (st : BuilderState) (ss : StackState),
      ((frames.foldl (stepFrame env idx) (st, ss)).1.samples.map Sample.value =
        st.samples.map Sample.value) ∧
      ((frames.foldl (stepFrame env idx) (st, ss)).1.traceMap = st.traceMap) := by
  intro frames
  induction frames with
  | nil => intro st ss; exact ⟨rfl, rfl⟩
  | cons fr frames ih =>
    intro st ss
    rw [List.foldl_cons]
    have hstep := stepFrame_preserves env idx (st, ss) fr
    have hih := ih (stepFrame env idx (st, ss) fr).1 (stepFrame env idx (st, ss) fr).2
    exact ⟨hih.1.trans hstep.1, hih.2.trans hstep.2⟩

/-- Equation for the key-hit branch of `AddTrace`. -/
theorem addTrace_hit (env : ExternalEnv) (st : BuilderState)
    (t : ProfileStackTrace) (w : Int) (idx : Nat)
    (h : traceFind st.traceMap t.trace = some idx) :
    AddTrace env st t w =
      { st with samples :=
          (listModify (fun s => UpdateSampleValues s w t.metric_value) idx
            st.samples) } := by
  rw [AddTrace, h]

/-- Equation for the key-miss branch of `AddTrace`. -/
theorem addTrace_miss (env : ExternalEnv) (st : BuilderState)
    (t : ProfileStackTrace) (w : Int)
    (h : traceFind st.traceMap t.trace = none) :
    AddTrace env st t w =
      ((t.trace.frames.drop (SkipTopNativeFrames t.trace)).foldl
        (stepFrame env st.samples.length)
        ({ st with
            samples := (listModify (InitSampleValues w t.metric_value)
              st.samples.length (st.samples ++ [(⟨[], []⟩ : Sample)])),
            traceMap := st.traceMap ++ [(t.trace, st.samples.length)] },
          initialStackState)).1 := by
  rw [AddTrace, h]

theorem updateSampleValues_pair (s : Sample) (a b w m : Int)
    (hv : s.value = [a, b]) :
    UpdateSampleValues s w m = { s with value := [a + w, b + m] } := by
  rw [UpdateSampleValues, hv]
  rfl

theorem list_length_two (l : List Int) (h : l.length = 2) : ∃ a b, l = [a, b] := by
  match l, h with
  | [a, b], _ => exact ⟨a, b, rfl⟩

theorem map_value_singleton (l : List Sample) (y : List Int)
    (h : l.map Sample.value = [y]) : ∃ s, l = [s] ∧ s.value = y := by
  match l, h with
  | [s], h =>
    refine ⟨s, rfl, ?_⟩
    simpa using h

/-- C1: adding a raw trace whose (method id, line) sequence is already
registered merges into the existing sample — `value[0]` grows by the weight
and `value[1]` by the trace's metric value, the sample count and location
table are untouched; any `AddTrace` leaves its key registered; and two
identical-sequence traces added with weight one into a fresh builder yield
exactly one sample with count 2 and metric the sum of the two metric
values. -/
theorem c1_addtrace_merge :
    (∀ (env : ExternalEnv) (st : BuilderState) (t : ProfileStackTrace) (w : Int)
        (idx : Nat), BuilderWF st → traceFind st.traceMap t.trace = some idx →
      (AddTrace env st t w).samples.length = st.samples.length ∧
      (AddTrace env st t w).locations = st.locations ∧
      (AddTrace env st t w).traceMap = st.traceMap ∧
      ∃ s a b, st.samples.get? idx = some s ∧ s.value = [a, b] ∧
        (AddTrace env st t w).samples.get? idx =
          some { s with value := [a + w, b + t.metric_value] }) ∧
    (∀ (env : ExternalEnv) (st : BuilderState) (t : ProfileStackTrace) (w : Int),
      ∃ idx, traceFind (AddTrace env st t w).traceMap t.trace = some idx) ∧
    (∀ (env : ExternalEnv) (t1 t2 : ProfileStackTrace), t1.trace = t2.trace →
      (AddTrace env (AddTrace env emptyBuilder t1 1) t2 1).samples.map
          Sample.value = [[2, t1.metric_value + t2.metric_value]] ∧
        (AddTrace env (AddTrace env emptyBuilder t1 1) t2 1).locations =
          (AddTrace env emptyBuilder t1 1).locations) := by
  refine ⟨?_, ?_, ?_⟩
  · intro env st t w idx hwf h
    rw [addTrace_hit env st t w idx h]
    have hidx : idx < st.samples.length := hwf.1 _ (traceFind_mem _ _ _ h)
    have hget : st.samples.get? idx = some st.samples[idx] := by
      rw [List.get?_eq_getElem?]
      exact List.getElem?_eq_getElem hidx
    have hmem : st.samples[idx] ∈ st.samples := List.getElem_mem hidx
    obtain ⟨a, b, hab⟩ := list_length_two _ (hwf.2 _ hmem)
    refine ⟨listModify_length _ _ _, rfl, rfl, st.samples[idx], a, b, hget, hab, ?_⟩
    show (listModify (fun s => UpdateSampleValues s w t.metric_value) idx
      st.samples).get? idx = _
    rw [listModify_get?_self, hget]
    rw [show ((some st.samples[idx]).map
        fun s => UpdateSampleValues s w t.metric_value) =
      some (UpdateSampleValues st.samples[idx] w t.metric_value) from rfl]
    rw [updateSampleValues_pair _ a b w t.metric_value hab]
  · intro env st t w
    cases h : traceFind st.traceMap t.trace with
    | some idx =>
      refine ⟨idx, ?_⟩
      rw [addTrace_hit env st t w idx h]
      exact h
    | none =>
      refine ⟨st.samples.length, ?_⟩
      rw [addTrace_miss env st t w h]
      rw [(walk_preserves env st.samples.length _ _ _).2]
      exact traceFind_self_append _ _ _ h
  · intro env t1 t2 heq
    have h1 : traceFind emptyBuilder.traceMap t1.trace = none := rfl
    have hs1 : (AddTrace env emptyBuilder t1 1).samples.map Sample.value =
        [[1, t1.metric_value]] := by
      rw [addTrace_miss env emptyBuilder t1 1 h1]
      rw [(walk_preserves env _ _ _ _).1]
      rfl
    have ht1 : (AddTrace env emptyBuilder t1 1).traceMap = [(t1.trace, 0)] := by
      rw [addTrace_miss env emptyBuilder t1 1 h1]
      rw [(walk_preserves env _ _ _ _).2]
      rfl
    have hfind : traceFind (AddTrace env emptyBuilder t1 1).traceMap t2.trace =
        some 0 := by
      rw [ht1, ← heq, traceFind]
      simp [(traceEquals_iff t1.trace t1.trace).mpr rfl]
    obtain ⟨s, hsingle, hval⟩ := map_value_singleton _ _ hs1
    have hsamp : (AddTrace env (AddTrace env emptyBuilder t1 1) t2 1).samples =
        listModify (fun s => UpdateSampleValues s 1 t2.metric_value) 0
          (AddTrace env emptyBuilder t1 1).samples := by
      rw [addTrace_hit env _ t2 1 0 hfind]
    constructor
    · rw [hsamp, hsingle]
      rw [show listModify (fun s => UpdateSampleValues s 1 t2.metric_value) 0 [s] =
          [UpdateSampleValues s 1 t2.metric_value] from rfl]
      rw [updateSampleValues_pair s 1 t1.metric_value 1 t2.metric_value hval]
      simp
    · rw [addTrace_hit env _ t2 1 0 hfind]

/-- C1 witness: two concrete identical traces with different metric values
merged from a fresh builder. -/
theorem c1_witness :
    (AddTrace sampleEnv
      (AddTrace sampleEnv emptyBuilder ⟨⟨[⟨10, 7⟩]⟩, 100⟩ 1)
      ⟨⟨[⟨10, 7⟩]⟩, 60⟩ 1).samples.map Sample.value = [[2, (100 : Int) + 60]] :=
  (c1_addtrace_merge.2.2 sampleEnv ⟨⟨[⟨10, 7⟩]⟩, 100⟩ ⟨⟨[⟨10, 7⟩]⟩, 60⟩ rfl).1

/-! ### Native frame collapsing (claim C9) -/

theorem nativeFrame_mode (s : StackState) (n : String) :
    (s.NativeFrame n).mode = FrameMode.inNativeRun n := by
  cases s with
  | mk mode skip =>
    cases mode with
    | initial => rfl
    | inJavaRun => rfl
    | inNativeRun n0 =>
      rw [StackState.NativeFrame]
      simp only
      split
      · rename_i h
        rw [h]
      · rfl

theorem nativeFrame_same (s : StackState) (n : String)
    (h : s.mode = FrameMode.inNativeRun n) :
    s.NativeFrame n = ⟨FrameMode.inNativeRun n, true⟩ := by
  cases s with
  | mk mode skip =>
    simp only at h
    subst h
    rw [StackState.NativeFrame]
    simp

theorem nativeFrame_diff (s : StackState) (n m : String)
    (h : s.mode = FrameMode.inNativeRun n) (hne : m ≠ n) :
    s.NativeFrame m = ⟨FrameMode.inNativeRun m, false⟩ := by
  cases s with
  | mk mode skip =>
    simp only at h
    subst h
    rw [StackState.NativeFrame]
    simp only
    rw [if_neg (fun hc => hne hc.symm)]

theorem addNativeInfo_snd (env : ExternalEnv) (st : BuilderState) (idx : Nat)
    (fr : JVMPI_CallFrame) (ss : StackState) :
    (AddNativeInfo env st idx fr ss).2 = ss.NativeFrame (env.nativeName fr) := by
  rw [AddNativeInfo]
  simp only
  split <;> rfl

/-- `LocationFor` keeps the table indices in range and returns an in-range
index. -/
theorem locationFor_bounded (st : BuilderState) (a b c : String) (d : Int)
    (h : LocMapBounded st) :
    LocMapBounded (LocationFor st a b c d).1 ∧
      (LocationFor st a b c d).2 < (LocationFor st a b c d).1.locations.length := by
  cases hf : locFind st.locMap ⟨a, b, c, d⟩ with
  | some idx =>
    rw [locationFor_idem st a b c d idx hf]
    exact ⟨h, h _ (locFind_mem _ _ _ hf)⟩
  | none =>
    rw [LocationFor, hf]
    simp only
    obtain ⟨-, hlocs, hmap, -⟩ := functionIdFor_fields st b c
    rw [hlocs, hmap]
    constructor
    · intro p hp
      simp only [List.length_append, List.length_cons, List.length_nil]
      rcases List.mem_append.mp hp with hp | hp
      · exact Nat.lt_succ_of_lt (h _ hp)
      · simp only [List.mem_singleton] at hp
        subst hp
        exact Nat.lt_succ_self _
    · simp

theorem addNativeInfo_skip_samples (env : ExternalEnv) (st : BuilderState)
    (idx : Nat) (fr : JVMPI_CallFrame) (ss : StackState)
    (h : (ss.NativeFrame (env.nativeName fr)).skip = true) :
    (AddNativeInfo env st idx fr ss).1.samples = st.samples := by
  rw [AddNativeInfo]
  simp only [StackState.SkipFrame]
  rw [if_pos h]
  exact locationFor_samples _ _ _ _ _

theorem addNativeInfo_locMap (env : ExternalEnv) (st : BuilderState)
    (idx : Nat) (fr : JVMPI_CallFrame) (ss : StackState) :
    (AddNativeInfo env st idx fr ss).1.locMap =
      (LocationFor st (env.nativeLocInfo fr).class_name
        (env.nativeLocInfo fr).function_name (env.nativeLocInfo fr).file_name
        (env.nativeLocInfo fr).line_number).1.locMap := by
  rw [AddNativeInfo]
  simp only
  split <;> rfl

theorem addNativeInfo_locations_length (env : ExternalEnv) (st : BuilderState)
    (idx : Nat) (fr : JVMPI_CallFrame) (ss : StackState) :
    (AddNativeInfo env st idx fr ss).1.locations.length =
      (LocationFor st (env.nativeLocInfo fr).class_name
        (env.nativeLocInfo fr).function_name (env.nativeLocInfo fr).file_name
        (env.nativeLocInfo fr).line_number).1.locations.length := by
  rw [AddNativeInfo]
  simp only
  split
  · rfl
  · show (listModify (fun loc : Location => { loc with address := fr.method_id })
      (LocationFor st (env.nativeLocInfo fr).class_name
        (env.nativeLocInfo fr).function_name (env.nativeLocInfo fr).file_name
        (env.nativeLocInfo fr).line_number).2
      (LocationFor st (env.nativeLocInfo fr).class_name
        (env.nativeLocInfo fr).function_name (env.nativeLocInfo fr).file_name
        (env.nativeLocInfo fr).line_number).1.locations).length = _
    exact listModify_length _ _ _

theorem addNativeInfo_bounded (env : ExternalEnv) (st : BuilderState)
    (idx : Nat) (fr : JVMPI_CallFrame) (ss : StackState) (hb : LocMapBounded st) :
    LocMapBounded (AddNativeInfo env st idx fr ss).1 := by
  intro p hp
  rw [addNativeInfo_locMap] at hp
  rw [addNativeInfo_locations_length]
  exact (locationFor_bounded st _ _ _ _ hb).1 _ hp

/-- The kept-frame branch of `AddNativeInfo`: the interned location is
stamped with the frame's raw pointer and its id is appended to the
sample. -/
theorem addNativeInfo_keep (env : ExternalEnv) (st : BuilderState) (idx : Nat)
    (fr : JVMPI_CallFrame) (ss : StackState) (hb : LocMapBounded st)
    (h : (ss.NativeFrame (env.nativeName fr)).skip = false) :
    ∃ li loc,
      (AddNativeInfo env st idx fr ss).1.locations.get? li = some loc ∧
        loc.address = fr.method_id ∧
        (AddNativeInfo env st idx fr ss).1.samples =
          listModify (fun s => { s with location_id := s.location_id ++ [loc.id] })
            idx st.samples := by
  rw [AddNativeInfo]
  simp only [StackState.SkipFrame]
  rw [if_neg (by rw [h]; exact Bool.false_ne_true)]
  obtain ⟨hb', hlt⟩ := locationFor_bounded st (env.nativeLocInfo fr).class_name
    (env.nativeLocInfo fr).function_name (env.nativeLocInfo fr).file_name
    (env.nativeLocInfo fr).line_number hb
  set r := LocationFor st (env.nativeLocInfo fr).class_name
    (env.nativeLocInfo fr).function_name (env.nativeLocInfo fr).file_name
    (env.nativeLocInfo fr).line_number with hr
  have hget : r.1.locations.get? r.2 = some r.1.locations[r.2] := by
    rw [List.get?_eq_getElem?]
    exact List.getElem?_eq_getElem hlt
  have hlid : ((listModify (fun loc => { loc with address := fr.method_id }) r.2
      r.1.locations).getD r.2 dummyLocation).id =
      ({ r.1.locations[r.2] with address := fr.method_id } : Location).id := by
    rw [List.getD_eq_getElem?_getD, ← List.get?_eq_getElem?, listModify_get?_self,
      hget]
    rfl
  refine ⟨r.2, { r.1.locations[r.2] with address := fr.method_id }, ?_, rfl, ?_⟩
  · show (listModify (fun loc => { loc with address := fr.method_id }) r.2
      r.1.locations).get? r.2 = _
    rw [listModify_get?_self, hget]
    rfl
  · show listModify (fun s => { s with location_id := s.location_id ++
      [((listModify (fun loc => { loc with address := fr.method_id }) r.2
        r.1.locations).getD r.2 dummyLocation).id] }) idx r.1.samples = _
    rw [hlid, locationFor_samples st (env.nativeLocInfo fr).class_name
      (env.nativeLocInfo fr).function_name (env.nativeLocInfo fr).file_name
      (env.nativeLocInfo fr).line_number]

/-- C9: within one trace walk, a native frame whose rendered name equals the
immediately preceding native frame's name contributes no location id to the
sample; a native frame whose name differs is always retained — its
location's id is appended to the sample and the location's address field is
stamped with the frame's raw function pointer. -/
theorem c9_native_frame_collapse :
    ∀ (env : ExternalEnv) (st : BuilderState) (ss : StackState) (idx : Nat)
      (f g : JVMPI_CallFrame),
      f.lineno = kNativeFrameLineNum → g.lineno = kNativeFrameLineNum →
      LocMapBounded st →
      (env.nativeName g = env.nativeName f →
        (stepFrame env idx (stepFrame env idx (st, ss) f) g).1.samples =
          (stepFrame env idx (st, ss) f).1.samples) ∧
      (env.nativeName g ≠ env.nativeName f →
        ∃ li loc,
          (stepFrame env idx (stepFrame env idx (st, ss) f) g).1.locations.get? li =
              some loc ∧
            loc.address = g.method_id ∧
            (stepFrame env idx (stepFrame env idx (st, ss) f) g).1.samples =
              listModify
                (fun s => { s with location_id := s.location_id ++ [loc.id] })
                idx (stepFrame env idx (st, ss) f).1.samples) := by
  intro env st ss idx f g hf hg hb
  have hstep1 : stepFrame env idx (st, ss) f = AddNativeInfo env st idx f ss := by
    rw [stepFrame, if_pos hf]
  have hmode : (stepFrame env idx (st, ss) f).2.mode =
      FrameMode.inNativeRun (env.nativeName f) := by
    rw [hstep1, addNativeInfo_snd, nativeFrame_mode]
  have hb1 : LocMapBounded (stepFrame env idx (st, ss) f).1 := by
    rw [hstep1]
    exact addNativeInfo_bounded env st idx f ss hb
  have hstep2 : stepFrame env idx (stepFrame env idx (st, ss) f) g =
      AddNativeInfo env (stepFrame env idx (st, ss) f).1 idx g
        (stepFrame env idx (st, ss) f).2 := by
    rw [stepFrame, if_pos hg]
  constructor
  · intro hsame
    rw [hstep2]
    apply addNativeInfo_skip_samples
    rw [hsame, nativeFrame_same _ _ hmode]
  · intro hdiff
    rw [hstep2]
    apply addNativeInfo_keep env _ idx g _ hb1
    rw [nativeFrame_diff _ _ _ hmode hdiff]

/-- C9 witness: two concrete native frames after a fresh state. -/
theorem c9_witness :
    (sampleEnv.nativeName ⟨-99, 6⟩ = sampleEnv.nativeName ⟨-99, 5⟩ →
      (stepFrame sampleEnv 0 (stepFrame sampleEnv 0 (emptyBuilder,
        initialStackState) ⟨-99, 5⟩) ⟨-99, 6⟩).1.samples =
        (stepFrame sampleEnv 0 (emptyBuilder, initialStackState)
          ⟨-99, 5⟩).1.samples) ∧
      (sampleEnv.nativeName ⟨-99, 6⟩ ≠ sampleEnv.nativeName ⟨-99, 5⟩ →
        ∃ li loc,
          (stepFrame sampleEnv 0 (stepFrame sampleEnv 0 (emptyBuilder,
            initialStackState) ⟨-99, 5⟩) ⟨-99, 6⟩).1.locations.get? li =
              some loc ∧
            loc.address = (⟨-99, 6⟩ : JVMPI_CallFrame).method_id ∧
            (stepFrame sampleEnv 0 (stepFrame sampleEnv 0 (emptyBuilder,
              initialStackState) ⟨-99, 5⟩) ⟨-99, 6⟩).1.samples =
              listModify
                (fun s => { s with location_id := s.location_id ++ [loc.id] })
                0 (stepFrame sampleEnv 0 (emptyBuilder, initialStackState)
                  ⟨-99, 5⟩).1.samples) :=
  c9_native_frame_collapse sampleEnv emptyBuilder initialStackState 0
    ⟨-99, 5⟩ ⟨-99, 6⟩ rfl rfl (fun p hp => by simp [emptyBuilder] at hp)

/-! ### Parser error handling (claim C5) -/

/-- The parser cursor never moves backwards, in any mode. -/
theorem parseF_pos_le :
    ∀ (fuel : Nat) (mode : ParserMode) (b : List Char) (pos : Nat),
      pos ≤ (parseF fuel mode b pos).2 := by
  intro fuel
  induction fuel with
  | zero => intro mode b pos; exact Nat.le_refl _
  | succ n ih =>
    intro mode b pos
    cases mode with
    | field =>
      rw [parseF]
      by_cases h : pos < b.length
      · rw [dif_pos h]
        by_cases h1 : b.get ⟨pos, h⟩ = 'B'
        · rw [if_pos h1]; exact Nat.le_succ pos
        rw [if_neg h1]
        by_cases h2 : b.get ⟨pos, h⟩ = 'C'
        · rw [if_pos h2]; exact Nat.le_succ pos
        rw [if_neg h2]
        by_cases h3 : b.get ⟨pos, h⟩ = 'D'
        · rw [if_pos h3]; exact Nat.le_succ pos
        rw [if_neg h3]
        by_cases h4 : b.get ⟨pos, h⟩ = 'F'
        · rw [if_pos h4]; exact Nat.le_succ pos
        rw [if_neg h4]
        by_cases h5 : b.get ⟨pos, h⟩ = 'I'
        · rw [if_pos h5]; exact Nat.le_succ pos
        rw [if_neg h5]
        by_cases h6 : b.get ⟨pos, h⟩ = 'J'
        · rw [if_pos h6]; exact Nat.le_succ pos
        rw [if_neg h6]
        by_cases h7 : b.get ⟨pos, h⟩ = 'S'
        · rw [if_pos h7]; exact Nat.le_succ pos
        rw [if_neg h7]
        by_cases h8 : b.get ⟨pos, h⟩ = 'Z'
        · rw [if_pos h8]; exact Nat.le_succ pos
        rw [if_neg h8]
        by_cases h9 : b.get ⟨pos, h⟩ = 'V'
        · rw [if_pos h9]; exact Nat.le_succ pos
        rw [if_neg h9]
        by_cases hL : b.get ⟨pos, h⟩ = 'L'
        · rw [if_pos hL]
          cases hfind : (b.drop (pos + 1)).findIdx? (fun c => c == ';') with
          | some k =>
            show pos ≤ (pos + 1) + (k + 1)
            omega
          | none =>
            show pos ≤ b.length
            omega
        rw [if_neg hL]
        by_cases hA : b.get ⟨pos, h⟩ = '['
        · rw [if_pos hA]
          exact le_trans (Nat.le_succ pos) (ih ParserMode.field b (pos + 1))
        rw [if_neg hA]
        by_cases hP : b.get ⟨pos, h⟩ = '('
        · rw [if_pos hP]
          exact ih ParserMode.withReturn b pos
        rw [if_neg hP]
        exact Nat.le_succ pos
      · rw [dif_neg h]
    | withReturn =>
      rw [parseF]
      by_cases h1 : (parseF n ParserMode.internal b pos).1 = ""
      · rw [if_pos h1]
        exact ih ParserMode.internal b pos
      rw [if_neg h1]
      by_cases h2 : (parseF n ParserMode.internal b pos).1.data.getLast? = some ')'
      · rw [if_pos h2]
        exact le_trans (ih ParserMode.internal b pos) (ih ParserMode.field b _)
      rw [if_neg h2]
      exact ih ParserMode.internal b pos
    | internal =>
      rw [parseF]
      by_cases h : pos < b.length
      · rw [dif_pos h]
        by_cases hP : b.get ⟨pos, h⟩ = '('
        · rw [if_pos hP]
          by_cases hq : (parseF n ParserMode.args b (pos + 1)).2 < b.length
          · rw [if_pos hq]
            have := ih ParserMode.args b (pos + 1)
            show pos ≤ (parseF n ParserMode.args b (pos + 1)).2 + 1
            omega
          · rw [if_neg hq]
            have := ih ParserMode.args b (pos + 1)
            show pos ≤ (parseF n ParserMode.args b (pos + 1)).2
            omega
        · rw [if_neg hP]
      · rw [dif_neg h]
    | args =>
      rw [parseF]
      by_cases h1 : atSignatureEnd b pos = true
      · rw [if_pos h1]
      rw [if_neg h1]
      by_cases h2 : atSignatureEnd b (parseF n ParserMode.field b pos).2 = true
      · rw [if_pos h2]
        exact ih ParserMode.field b pos
      rw [if_neg h2]
      exact le_trans (ih ParserMode.field b pos) (ih ParserMode.args b _)

theorem paren_append_ne_empty (x y : String) : ("(" ++ x ++ y) ≠ "" := by
  intro hcon
  have hlen := congrArg String.length hcon
  rw [String.length_append, String.length_append] at hlen
  rw [show "(".length = 1 from rfl, show "".length = 0 from rfl] at hlen
  omega

/-- With at least three units of fuel, a field-type parse at an in-range
position strictly advances the cursor. -/
theorem parseF_field_advance :
    ∀ (fuel : Nat) (b : List Char) (pos : Nat), 3 ≤ fuel → pos < b.length →
      pos + 1 ≤ (parseF fuel ParserMode.field b pos).2 := by
  intro fuel b pos hfuel h
  obtain ⟨n, rfl⟩ : ∃ n, fuel = n + 3 := ⟨fuel - 3, by omega⟩
  rw [show n + 3 = (n + 2) + 1 from rfl, parseF, dif_pos h]
  by_cases h1 : b.get ⟨pos, h⟩ = 'B'
  · rw [if_pos h1]
  rw [if_neg h1]
  by_cases h2 : b.get ⟨pos, h⟩ = 'C'
  · rw [if_pos h2]
  rw [if_neg h2]
  by_cases h3 : b.get ⟨pos, h⟩ = 'D'
  · rw [if_pos h3]
  rw [if_neg h3]
  by_cases h4 : b.get ⟨pos, h⟩ = 'F'
  · rw [if_pos h4]
  rw [if_neg h4]
  by_cases h5 : b.get ⟨pos, h⟩ = 'I'
  · rw [if_pos h5]
  rw [if_neg h5]
  by_cases h6 : b.get ⟨pos, h⟩ = 'J'
  · rw [if_pos h6]
  rw [if_neg h6]
  by_cases h7 : b.get ⟨pos, h⟩ = 'S'
  · rw [if_pos h7]
  rw [if_neg h7]
  by_cases h8 : b.get ⟨pos, h⟩ = 'Z'
  · rw [if_pos h8]
  rw [if_neg h8]
  by_cases h9 : b.get ⟨pos, h⟩ = 'V'
  · rw [if_pos h9]
  rw [if_neg h9]
  by_cases hL : b.get ⟨pos, h⟩ = 'L'
  · rw [if_pos hL]
    cases hfind : (b.drop (pos + 1)).findIdx? (fun c => c == ';') with
    | some k =>
      show pos + 1 ≤ (pos + 1) + (k + 1)
      omega
    | none =>
      show pos + 1 ≤ b.length
      omega
  rw [if_neg hL]
  by_cases hA : b.get ⟨pos, h⟩ = '['
  · rw [if_pos hA]
    show pos + 1 ≤ (parseF (n + 2) ParserMode.field b (pos + 1)).2
    exact parseF_pos_le (n + 2) ParserMode.field b (pos + 1)
  rw [if_neg hA]
  by_cases hP : b.get ⟨pos, h⟩ = '('
  · rw [if_pos hP]
    have hint : pos + 1 ≤ (parseF (n + 1) ParserMode.internal b pos).2 ∧
        (parseF (n + 1) ParserMode.internal b pos).1 ≠ "" := by
      rw [show n + 1 = n + 1 from rfl, parseF, dif_pos h, if_pos hP]
      by_cases hq : (parseF n ParserMode.args b (pos + 1)).2 < b.length
      · rw [if_pos hq]
        refine ⟨?_, paren_append_ne_empty _ _⟩
        have := parseF_pos_le n ParserMode.args b (pos + 1)
        show pos + 1 ≤ (parseF n ParserMode.args b (pos + 1)).2 + 1
        omega
      · rw [if_neg hq]
        refine ⟨?_, paren_append_ne_empty _ _⟩
        exact parseF_pos_le n ParserMode.args b (pos + 1)
    rw [show n + 2 = (n + 1) + 1 from rfl, parseF, if_neg hint.2]
    by_cases hb : (parseF (n + 1) ParserMode.internal b pos).1.data.getLast? =
      some ')'
    · rw [if_pos hb]
      exact le_trans hint.1 (parseF_pos_le (n + 1) ParserMode.field b _)
    · rw [if_neg hb]
      exact hint.1
  rw [if_neg hP]

/-- If no closing parenthesis occurs at or after the cursor, the argument
loop runs to the end of the buffer. -/
theorem parseF_args_no_paren :
    ∀ (fuel : Nat) (b : List Char) (pos : Nat),
      b.length - pos + 4 ≤ fuel → (∀ c ∈ b.drop pos, c ≠ ')') →
      b.length ≤ (parseF fuel ParserMode.args b pos).2 := by
  intro fuel
  induction fuel with
  | zero =>
    intro b pos hb
    omega
  | succ n ih =>
    intro b pos hb hno
    rw [parseF]
    by_cases hend : atSignatureEnd b pos = true
    · rw [if_pos hend]
      rw [atSignatureEnd, Bool.or_eq_true, decide_eq_true_eq] at hend
      rcases hend with hend | hend
      · exact hend
      · exfalso
        have hlt : pos < b.length := by
          by_contra hcon
          rw [List.getElem?_eq_none (by omega)] at hend
          simp at hend
        rw [List.getElem?_eq_getElem hlt] at hend
        have : b[pos] = ')' := by simpa using hend
        refine hno b[pos] ?_ this
        rw [List.drop_eq_getElem_cons hlt]
        exact List.mem_cons_self _ _
    rw [if_neg hend]
    have hlt : pos < b.length := by
      by_contra hcon
      apply hend
      rw [atSignatureEnd, Bool.or_eq_true, decide_eq_true_eq]
      exact Or.inl (by omega)
    have hadv : pos + 1 ≤ (parseF n ParserMode.field b pos).2 :=
      parseF_field_advance n b pos (by omega) hlt
    have hno' : ∀ c ∈ b.drop (parseF n ParserMode.field b pos).2, c ≠ ')' := by
      intro c hc
      apply hno
      have h1 : b.drop (parseF n ParserMode.field b pos).2 =
          List.drop ((parseF n ParserMode.field b pos).2 - pos) (b.drop pos) := by
        rw [List.drop_drop]
        congr 1
        omega
      rw [h1] at hc
      exact List.drop_subset _ _ hc
    by_cases hend2 : atSignatureEnd b (parseF n ParserMode.field b pos).2 = true
    · rw [if_pos hend2]
      rw [atSignatureEnd, Bool.or_eq_true, decide_eq_true_eq] at hend2
      rcases hend2 with hend2 | hend2
      · exact hend2
      · exfalso
        set q := (parseF n ParserMode.field b pos).2 with hq
        have hqlt : q < b.length := by
          by_contra hcon
          rw [List.getElem?_eq_none (by omega)] at hend2
          simp at hend2
        rw [List.getElem?_eq_getElem hqlt] at hend2
        have : b[q] = ')' := by simpa using hend2
        refine hno' b[q] ?_ this
        rw [List.drop_eq_getElem_cons hqlt]
        exact List.mem_cons_self _ _
    rw [if_neg hend2]
    show b.length ≤ (parseF n ParserMode.args b (parseF n ParserMode.field b pos).2).2
    exact ih b (parseF n ParserMode.field b pos).2 (by omega) hno'

/-- C5: the descriptor parser is total and degrades to placeholders — a
position at or past the end of the buffer yields the fixed end-of-buffer
placeholder, an unrecognized tag yields the fixed unknown-type placeholder,
an `'L'` type whose terminating `';'` never appears yields the
end-of-string placeholder with the cursor advanced to the end of the
buffer, and a method descriptor whose `')'` is never reached returns the
arguments parsed so far with the literal diagnostic suffix appended. -/
theorem c5_parser_error_handling :
    (∀ (b : List Char) (pos : Nat), b.length ≤ pos →
      ParseFieldType b pos = ("<error: end of buffer reached>", pos)) ∧
    (∀ (b : List Char) (pos : Nat) (h : pos < b.length),
      b.get ⟨pos, h⟩ ∉
        (['B', 'C', 'D', 'F', 'I', 'J', 'S', 'Z', 'V', 'L', '[', '('] :
          List Char) →
      ParseFieldType b pos = ("<error: unknown type>", pos + 1)) ∧
    (∀ (b : List Char) (pos : Nat) (h : pos < b.length),
      b.get ⟨pos, h⟩ = 'L' → (∀ c ∈ b.drop (pos + 1), c ≠ ';') →
      ParseFieldType b pos = ("<error: end of string reached>", b.length)) ∧
    (∀ (b : List Char) (pos : Nat) (h : pos < b.length),
      b.get ⟨pos, h⟩ = '(' → (∀ c ∈ b.drop pos, c ≠ ')') →
      ∃ args p, ParseMethodTypeSignature b pos =
        ("(" ++ args ++ noParenSuffix, p)) := by
  refine ⟨?_, ?_, ?_, ?_⟩
  · intro b pos h
    rw [ParseFieldType, show parserFuel b = (4 * b.length + 7) + 1 from rfl,
      parseF, dif_neg (not_lt.mpr h)]
  · intro b pos h hne
    simp only [List.mem_cons, List.not_mem_nil, or_false, not_or] at hne
    obtain ⟨n1, n2, n3, n4, n5, n6, n7, n8, n9, nL, nA, nP⟩ := hne
    rw [ParseFieldType, show parserFuel b = (4 * b.length + 7) + 1 from rfl,
      parseF, dif_pos h, if_neg n1, if_neg n2, if_neg n3, if_neg n4, if_neg n5,
      if_neg n6, if_neg n7, if_neg n8, if_neg n9, if_neg nL, if_neg nA,
      if_neg nP]
  · intro b pos h hL hno
    have n1 : b.get ⟨pos, h⟩ ≠ 'B' := by rw [hL]; decide
    have n2 : b.get ⟨pos, h⟩ ≠ 'C' := by rw [hL]; decide
    have n3 : b.get ⟨pos, h⟩ ≠ 'D' := by rw [hL]; decide
    have n4 : b.get ⟨pos, h⟩ ≠ 'F' := by rw [hL]; decide
    have n5 : b.get ⟨pos, h⟩ ≠ 'I' := by rw [hL]; decide
    have n6 : b.get ⟨pos, h⟩ ≠ 'J' := by rw [hL]; decide
    have n7 : b.get ⟨pos, h⟩ ≠ 'S' := by rw [hL]; decide
    have n8 : b.get ⟨pos, h⟩ ≠ 'Z' := by rw [hL]; decide
    have n9 : b.get ⟨pos, h⟩ ≠ 'V' := by rw [hL]; decide
    rw [ParseFieldType, show parserFuel b = (4 * b.length + 7) + 1 from rfl,
      parseF, dif_pos h, if_neg n1, if_neg n2, if_neg n3, if_neg n4, if_neg n5,
      if_neg n6, if_neg n7, if_neg n8, if_neg n9, if_pos hL]
    have hfind : (b.drop (pos + 1)).findIdx? (fun c => c == ';') = none := by
      rw [List.findIdx?_eq_none_iff]
      intro x hx
      exact beq_eq_false_iff_ne.mpr (hno x hx)
    rw [hfind]
  · intro b pos h hP hno
    rw [ParseMethodTypeSignature, show parserFuel b = (4 * b.length + 7) + 1
      from rfl, parseF, dif_pos h, if_pos hP]
    have hno' : ∀ c ∈ b.drop (pos + 1), c ≠ ')' := by
      intro c hc
      apply hno
      have h1 : b.drop (pos + 1) = List.drop 1 (b.drop pos) := by
        rw [List.drop_drop]
      rw [h1] at hc
      exact List.drop_subset _ _ hc
    have hdone : b.length ≤ (parseF (4 * b.length + 7) ParserMode.args b
        (pos + 1)).2 :=
      parseF_args_no_paren (4 * b.length + 7) b (pos + 1) (by omega) hno'
    rw [if_neg (by omega)]
    exact ⟨(parseF (4 * b.length + 7) ParserMode.args b (pos + 1)).1, _, rfl⟩

/-- C5 witness at concrete inputs exercising all four error paths. -/
theorem c5_witness :
    ParseFieldType "I".toList 5 = ("<error: end of buffer reached>", 5) ∧
      ParseFieldType "X".toList 0 = ("<error: unknown type>", 1) ∧
      ParseFieldType "Ljava".toList 0 = ("<error: end of string reached>", 5) ∧
      ∃ args p, ParseMethodTypeSignature "(II".toList 0 =
        ("(" ++ args ++ noParenSuffix, p) :=
  ⟨c5_parser_error_handling.1 "I".toList 5 (by decide),
    c5_parser_error_handling.2.1 "X".toList 0 (by decide) (by decide),
    c5_parser_error_handling.2.2.1 "Ljava".toList 0 (by decide) (by decide)
      (by decide),
    c5_parser_error_handling.2.2.2 "(II".toList 0 (by decide) (by decide)
      (by decide)⟩

/-! ### Name rewrite algebra (claim C8) -/

theorem isPrefixOf_iff_exists :
    ∀ (t l : List Char), t.isPrefixOf l = true ↔ ∃ u, l = t ++ u := by
  intro t
  induction t with
  | nil =>
    intro l
    simp [List.isPrefixOf]
  | cons a t ih =>
    intro l
    cases l with
    | nil =>
      simp [List.isPrefixOf]
    | cons b r =>
      show (a == b && t.isPrefixOf r) = true ↔ _
      rw [Bool.and_eq_true, beq_iff_eq, ih r]
      constructor
      · rintro ⟨rfl, u, rfl⟩
        exact ⟨u, rfl⟩
      · rintro ⟨u, hu⟩
        rw [List.cons_append] at hu
        injection hu with h1 h2
        exact ⟨h1.symm, u, h2⟩

theorem dropWhile_eq_self_of_head (p : Char → Bool) (x : List Char)
    (h : ∀ c, x.head? = some c → p c = false) : x.dropWhile p = x := by
  cases x with
  | nil => rfl
  | cons c r =>
    rw [List.dropWhile_cons_of_neg]
    rw [h c rfl]
    exact Bool.false_ne_true

theorem head_dropWhile_false (p : Char → Bool) :
    ∀ (l : List Char) (c : Char), (l.dropWhile p).head? = some c → p c = false := by
  intro l
  induction l with
  | nil => intro c hc; simp at hc
  | cons a r ih =>
    intro c hc
    by_cases ha : p a = true
    · rw [List.dropWhile_cons_of_pos ha] at hc
      exact ih c hc
    · rw [List.dropWhile_cons_of_neg ha] at hc
      injection hc with hc
      rw [← hc]
      exact Bool.eq_false_iff.mpr ha

/-- `SimplifySuffixedName` never lengthens the string. -/
theorem ssn_length_le (t : List Char) (s : Char → Bool) :
    ∀ (l : List Char), (SimplifySuffixedName t s l).length ≤ l.length := by
  have main : ∀ (n : Nat) (l : List Char), l.length ≤ n →
      (SimplifySuffixedName t s l).length ≤ l.length := by
    intro n
    induction n with
    | zero =>
      intro l hl
      have : l = [] := List.eq_nil_of_length_eq_zero (Nat.le_zero.mp hl)
      subst this
      rw [ssn_nil]
    | succ n ih =>
      intro l hl
      match l with
      | [] => rw [ssn_nil]
      | c :: r =>
        by_cases hc : t.isPrefixOf (c :: r) ∧ t ≠ []
        · rw [ssn_pos t s _ hc.2 hc.1]
          have hdl := ssn_drop_len t s c r hc.2
          have hrec := ih (List.dropWhile s ((c :: r).drop t.length))
            (le_trans hdl (Nat.le_of_succ_le_succ hl))
          have hm2 : (List.dropWhile s ((c :: r).drop t.length)).length ≤
              (c :: r).length - t.length := by
            calc (List.dropWhile s ((c :: r).drop t.length)).length
                ≤ ((c :: r).drop t.length).length :=
                  (List.dropWhile_suffix s).length_le
              _ = (c :: r).length - t.length := by rw [List.length_drop]
          obtain ⟨u, hu⟩ := (isPrefixOf_iff_exists t (c :: r)).mp hc.1
          have hpl : t.length ≤ (c :: r).length := by
            rw [hu, List.length_append]
            omega
          rw [List.length_append]
          omega
        · rw [ssn_neg t s c r hc]
          have := ih r (Nat.le_of_succ_le_succ hl)
          simp only [List.length_cons]
          omega
  intro l
  exact main l.length l (Nat.le_refl _)

/-- `SimplifySuffixedName` preserves the head character. -/
theorem ssn_head? (t : List Char) (s : Char → Bool) (l : List Char) :
    (SimplifySuffixedName t s l).head? = l.head? := by
  match l with
  | [] => rw [ssn_nil]
  | c :: r =>
    by_cases hc : t.isPrefixOf (c :: r) ∧ t ≠ []
    · rw [ssn_pos t s _ hc.2 hc.1]
      obtain ⟨u, hu⟩ := (isPrefixOf_iff_exists t (c :: r)).mp hc.1
      cases t with
      | nil => exact absurd rfl hc.2
      | cons a t' =>
        rw [List.cons_append] at hu ⊢
        injection hu with h1 _
        rw [List.head?_cons, List.head?_cons, h1]
    · rw [ssn_neg t s c r hc, List.head?_cons, List.head?_cons]

/-- `SimplifySuffixedName` preserves any prefix shorter than the trigger. -/
theorem ssn_take (t : List Char) (s : Char → Bool) :
    ∀ (l : List Char) (n : Nat), n < t.length →
      (SimplifySuffixedName t s l).take n = l.take n := by
  have main : ∀ (m : Nat) (l : List Char), l.length ≤ m → ∀ (n : Nat),
      n < t.length → (SimplifySuffixedName t s l).take n = l.take n := by
    intro m
    induction m with
    | zero =>
      intro l hl n _
      have : l = [] := List.eq_nil_of_length_eq_zero (Nat.le_zero.mp hl)
      subst this
      rw [ssn_nil]
    | succ m ih =>
      intro l hl n hn
      match l with
      | [] => rw [ssn_nil]
      | c :: r =>
        by_cases hc : t.isPrefixOf (c :: r) ∧ t ≠ []
        · rw [ssn_pos t s _ hc.2 hc.1]
          obtain ⟨u, hu⟩ := (isPrefixOf_iff_exists t (c :: r)).mp hc.1
          rw [List.take_append_eq_append_take, Nat.sub_eq_zero_of_le
            (Nat.le_of_lt hn), List.take_zero, List.append_nil]
          rw [hu, List.take_append_eq_append_take, Nat.sub_eq_zero_of_le
            (Nat.le_of_lt hn), List.take_zero, List.append_nil]
        · rw [ssn_neg t s c r hc]
          match n with
          | 0 => rw [List.take_zero, List.take_zero]
          | k + 1 =>
            rw [List.take_succ_cons, List.take_succ_cons]
            rw [ih r (Nat.le_of_succ_le_succ hl) k (Nat.lt_of_succ_lt hn)]
  intro l n hn
  exact main l.length l (Nat.le_refl _) n hn

/-- The key idempotence property of `SimplifySuffixedName`: a second pass
retraces the first pass's trigger positions and finds nothing left to
erase. -/
theorem ssn_idem (t : List Char) (s : Char → Bool) (hne : t ≠ []) :
    ∀ (l : List Char),
      SimplifySuffixedName t s (SimplifySuffixedName t s l) =
        SimplifySuffixedName t s l := by
  have main : ∀ (m : Nat) (l : List Char), l.length ≤ m →
      SimplifySuffixedName t s (SimplifySuffixedName t s l) =
        SimplifySuffixedName t s l := by
    intro m
    induction m with
    | zero =>
      intro l hl
      have : l = [] := List.eq_nil_of_length_eq_zero (Nat.le_zero.mp hl)
      subst this
      rw [ssn_nil, ssn_nil]
    | succ m ih =>
      intro l hl
      match l with
      | [] => rw [ssn_nil, ssn_nil]
      | c :: r =>
        by_cases hc : t.isPrefixOf (c :: r) ∧ t ≠ []
        · rw [ssn_pos t s _ hc.2 hc.1]
          have hp2 : t.isPrefixOf (t ++ SimplifySuffixedName t s
              (List.dropWhile s ((c :: r).drop t.length))) = true :=
            (isPrefixOf_iff_exists _ _).mpr ⟨_, rfl⟩
          rw [ssn_pos t s _ hne hp2, List.drop_left]
          have hdw : List.dropWhile s (SimplifySuffixedName t s
              (List.dropWhile s ((c :: r).drop t.length))) =
              SimplifySuffixedName t s
                (List.dropWhile s ((c :: r).drop t.length)) := by
            apply dropWhile_eq_self_of_head
            intro d hd
            rw [ssn_head?] at hd
            exact head_dropWhile_false s _ d hd
          rw [hdw]
          have hdl := ssn_drop_len t s c r hc.2
          rw [ih _ (le_trans hdl (Nat.le_of_succ_le_succ hl))]
        · rw [ssn_neg t s c r hc]
          have hnp : ¬ (t.isPrefixOf (c :: SimplifySuffixedName t s r) ∧ t ≠ []) := by
            rintro ⟨hp, -⟩
            apply hc
            refine ⟨?_, hne⟩
            cases t with
            | nil => exact absurd rfl hne
            | cons a t' =>
              obtain ⟨u, hu⟩ := (isPrefixOf_iff_exists _ _).mp hp
              rw [List.cons_append] at hu
              injection hu with h1 h2
              have ht' : t'.length < (a :: t').length := by simp
              have htk : (SimplifySuffixedName (a :: t') s r).take t'.length =
                  r.take t'.length :=
                ssn_take (a :: t') s r t'.length ht'
              have ht'eq : t' = r.take t'.length := by
                rw [← htk, h2, List.take_append_eq_append_take, Nat.sub_self,
                  List.take_zero, List.append_nil, List.take_length]
              apply (isPrefixOf_iff_exists _ _).mpr
              refine ⟨r.drop t'.length, ?_⟩
              rw [List.cons_append, h1]
              congr 1
              conv_lhs => rw [← List.take_append_drop t'.length r]
              rw [← ht'eq]
          rw [ssn_neg t s c _ hnp]
          rw [ih r (Nat.le_of_succ_le_succ hl)]
  intro l
  exact main l.length l (Nat.le_refl _)

/-- A string without the trigger is returned unchanged. -/
theorem ssn_no_occ (t : List Char) (s : Char → Bool) :
    ∀ (l : List Char), ¬ t <:+: l → SimplifySuffixedName t s l = l := by
  intro l
  induction l with
  | nil => intro _; rw [ssn_nil]
  | cons c r ih =>
    intro hno
    by_cases hc : t.isPrefixOf (c :: r) ∧ t ≠ []
    · exfalso
      obtain ⟨u, hu⟩ := (isPrefixOf_iff_exists _ _).mp hc.1
      exact hno ⟨[], u, by rw [hu]; rfl⟩
    · rw [ssn_neg t s c r hc]
      rw [ih (fun ⟨a, b, hab⟩ => hno ⟨c :: a, b, by rw [← hab]; rfl⟩)]

theorem noTrigRun_nil (t : List Char) (s : Char → Bool) : NoTrigRun t s [] := by
  intro a b hab
  have := congrArg List.length hab
  simp [List.length_append] at this
  have hb : b = [] := List.eq_nil_of_length_eq_zero (by omega)
  rw [hb]
  rfl

theorem dropWhile_cons_self (s : Char → Bool) (x : Char) (y : List Char)
    (h : List.dropWhile s (x :: y) = x :: y) : s x = false := by
  by_cases hx : s x = true
  · rw [List.dropWhile_cons_of_pos hx] at h
    have h1 := congrArg List.length h
    have h2 : (List.dropWhile s y).length ≤ y.length := (List.dropWhile_suffix s).length_le
    rw [List.length_cons] at h1
    omega
  · exact Bool.eq_false_iff.mpr hx

theorem suffix_of_append_right (y x z : List Char) (h : y <:+ x ++ z)
    (hlen : y.length ≤ z.length) : y <:+ z := by
  obtain ⟨w, hw⟩ := h
  refine ⟨w.drop x.length, ?_⟩
  have h1 := congrArg (List.drop x.length) hw
  rw [List.drop_left] at h1
  have h2 : x.length ≤ w.length := by
    have := congrArg List.length hw
    rw [List.length_append, List.length_append] at this
    omega
  rw [← h1, List.drop_append_eq_append_drop, Nat.sub_eq_zero_of_le h2, List.drop_zero]

/-- Splitting an equality of concatenations at the boundary of the shorter
left part. -/
theorem append_eq_split (X Y A B : List Char) (h : X ++ Y = A ++ B)
    (hlen : A.length ≤ X.length) : ∃ w, X = A ++ w ∧ B = w ++ Y := by
  have hX : X.take A.length ++ (X.drop A.length ++ Y) = A ++ B := by
    rw [← List.append_assoc, List.take_append_drop]
    exact h
  have hlt : (X.take A.length).length = A.length := by
    rw [List.length_take]
    exact Nat.min_eq_left hlen
  obtain ⟨h1, h2⟩ := List.append_inj hX hlt
  refine ⟨X.drop A.length, ?_, h2.symm⟩
  have h3 := List.take_append_drop A.length X
  rw [h1] at h3
  exact h3.symm

/-- If every trigger occurrence in `l` is already followed by a non-suffix
character, `SimplifySuffixedName` erases nothing. -/
theorem fixed_of_noTrig (t : List Char) (s : Char → Bool) (hne : t ≠ []) :
    ∀ (l : List Char), NoTrigRun t s l → SimplifySuffixedName t s l = l := by
  have main : ∀ (m : Nat) (l : List Char), l.length ≤ m → NoTrigRun t s l →
      SimplifySuffixedName t s l = l := by
    intro m
    induction m with
    | zero =>
      intro l hl _
      have : l = [] := List.eq_nil_of_length_eq_zero (Nat.le_zero.mp hl)
      subst this
      rw [ssn_nil]
    | succ m ih =>
      intro l hl hNT
      match l with
      | [] => rw [ssn_nil]
      | c :: r =>
        by_cases hc : t.isPrefixOf (c :: r) ∧ t ≠ []
        · rw [ssn_pos t s _ hc.2 hc.1]
          obtain ⟨u, hu⟩ := (isPrefixOf_iff_exists t (c :: r)).mp hc.1
          have hdropu : (c :: r).drop t.length = u := by rw [hu, List.drop_left]
          have hdw : List.dropWhile s u = u := hNT [] u (by rw [hu]; rfl)
          rw [hdropu, hdw]
          have hNTu : NoTrigRun t s u := by
            intro a b hab
            exact hNT (t ++ a) b (by rw [hu, hab]; simp [List.append_assoc])
          have ht1 : 1 ≤ t.length := List.length_pos.mpr hne
          have hulen : u.length ≤ m := by
            have := congrArg List.length hu
            rw [List.length_cons, List.length_append] at this
            simp only [List.length_cons] at hl
            omega
          rw [ih u hulen hNTu, hu]
        · rw [ssn_neg t s c r hc]
          have hNTr : NoTrigRun t s r := by
            intro a b hab
            exact hNT (c :: a) b (by rw [hab]; rfl)
          simp only [List.length_cons] at hl
          rw [ih r (Nat.le_of_succ_le_succ hl) hNTr]
  intro l
  exact main l.length l (Nat.le_refl _)

/-- Conversely, for a trigger without self-overlap, a fixed point of
`SimplifySuffixedName` has every trigger occurrence followed by a non-suffix
character. -/
theorem noTrig_of_fixed (t : List Char) (s : Char → Bool) (hov : NoSelfOverlap t)
    (hne : t ≠ []) :
    ∀ (l : List Char), SimplifySuffixedName t s l = l → NoTrigRun t s l := by
  have main : ∀ (m : Nat) (l : List Char), l.length ≤ m →
      SimplifySuffixedName t s l = l → NoTrigRun t s l := by
    intro m
    induction m with
    | zero =>
      intro l hl _
      have : l = [] := List.eq_nil_of_length_eq_zero (Nat.le_zero.mp hl)
      subst this
      exact noTrigRun_nil t s
    | succ m ih =>
      intro l hl hfix
      match l with
      | [] => exact noTrigRun_nil t s
      | c :: r =>
        by_cases hc : t.isPrefixOf (c :: r) ∧ t ≠ []
        · obtain ⟨u, hu⟩ := (isPrefixOf_iff_exists t (c :: r)).mp hc.1
          have hdropu : (c :: r).drop t.length = u := by rw [hu, List.drop_left]
          rw [ssn_pos t s _ hc.2 hc.1, hdropu, hu] at hfix
          have hX : SimplifySuffixedName t s (List.dropWhile s u) = u := by
            have := congrArg (List.drop t.length) hfix
            rw [List.drop_left, List.drop_left] at this
            exact this
          have hdwu : List.dropWhile s u = u := by
            have h1 : u.length ≤ (List.dropWhile s u).length := by
              have := ssn_length_le t s (List.dropWhile s u)
              rw [hX] at this
              exact this
            have h2 : (List.dropWhile s u).length ≤ u.length :=
              (List.dropWhile_suffix s).length_le
            exact ((List.dropWhile_suffix s).sublist).eq_of_length (by omega)
          rw [hdwu] at hX
          have ht1 : 1 ≤ t.length := List.length_pos.mpr hne
          have hulen : u.length ≤ m := by
            have := congrArg List.length hu
            rw [List.length_cons, List.length_append] at this
            simp only [List.length_cons] at hl
            omega
          have hNTu : NoTrigRun t s u := ih u hulen hX
          intro a b hab
          rw [hu] at hab
          match a with
          | [] =>
            have hbu : b = u := by
              have := congrArg (List.drop t.length) hab
              rw [List.drop_left, List.nil_append, List.drop_left] at this
              exact this.symm
            rw [hbu]
            exact hdwu
          | x :: a' =>
            have hab' : t ++ u = (x :: a') ++ (t ++ b) := by
              rw [hab, List.append_assoc]
            rcases Nat.lt_or_ge (x :: a').length t.length with hlt | hge
            · exfalso
              obtain ⟨w, hw1, hw2⟩ := append_eq_split t u (x :: a') (t ++ b)
                hab' (Nat.le_of_lt hlt)
              have hwlen : w.length ≤ t.length := by
                have := congrArg List.length hw1
                rw [List.length_append] at this
                omega
              obtain ⟨v, hv1, _⟩ := append_eq_split t b w u hw2 hwlen
              have hdropw : t.drop (x :: a').length = w := by
                rw [hw1, List.drop_left]
              exact hov (x :: a').length hlt (by simp)
                (by rw [hdropw]; exact ⟨v, hv1.symm⟩)
            · obtain ⟨w, _, hw2⟩ := append_eq_split (x :: a') (t ++ b) t u
                hab'.symm hge
              exact hNTu w b (by rw [hw2, List.append_assoc])
        · rw [ssn_neg t s c r hc] at hfix
          have hfr : SimplifySuffixedName t s r = r := by
            injection hfix
          have hNTr : NoTrigRun t s r := by
            simp only [List.length_cons] at hl
            exact ih r (Nat.le_of_succ_le_succ hl) hfr
          intro a b hab
          match a with
          | [] =>
            exfalso
            apply hc
            refine ⟨(isPrefixOf_iff_exists t (c :: r)).mpr ⟨b, ?_⟩, hne⟩
            rw [hab]
            rfl
          | x :: a' =>
            rw [List.cons_append, List.cons_append] at hab
            injection hab with h1 h2
            exact hNTr a' b h2
  intro l
  exact main l.length l (Nat.le_refl _)

/-- Scanning decomposition of `SimplifySuffixedName`: either the input has no
trigger and is returned unchanged, or it splits at the first trigger kept in
the output. -/
theorem ssn_decomp (t : List Char) (s : Char → Bool) :
    ∀ (l : List Char), SimplifySuffixedName t s l = l ∨
      ∃ pre post, l = pre ++ t ++ post ∧
        SimplifySuffixedName t s l =
          pre ++ t ++ SimplifySuffixedName t s (List.dropWhile s post) := by
  intro l
  induction l with
  | nil => left; rw [ssn_nil]
  | cons c r ih =>
    by_cases hc : t.isPrefixOf (c :: r) ∧ t ≠ []
    · right
      obtain ⟨u, hu⟩ := (isPrefixOf_iff_exists t (c :: r)).mp hc.1
      refine ⟨[], u, by rw [hu]; rfl, ?_⟩
      rw [ssn_pos t s _ hc.2 hc.1]
      rw [show (c :: r).drop t.length = u from by rw [hu, List.drop_left]]
      rfl
    · rw [ssn_neg t s c r hc]
      cases ih with
      | inl h => left; rw [h]
      | inr h =>
        obtain ⟨pre, post, h1, h2⟩ := h
        right
        exact ⟨c :: pre, post,
          (by rw [h1]; simp [List.append_assoc] : c :: r = c :: pre ++ t ++ post),
          (by rw [h2]; simp [List.append_assoc] :
            c :: SimplifySuffixedName t s r =
              c :: pre ++ t ++ SimplifySuffixedName t s (List.dropWhile s post))⟩

/-- Occurrence analysis for one rewritten block `pre ++ t' ++ E`: every
occurrence of a different trigger `t` either lies in the untouched part
(covered by the original context), lies in the recursively simplified tail
`E`, or would straddle the boundary — impossible when no suffix of `t'`
is a proper prefix of `t` and `t'` does not occur inside `t`. -/
theorem noTrigRun_glue (t t' : List Char) (s : Char → Bool)
    (hF1 : ¬ t' <:+: t)
    (hF2 : ∀ k, k < t.length → 0 < k → ¬ (t.take k <:+ t'))
    (pre post E : List Char)
    (hctx : NoTrigRun t s (pre ++ t' ++ post))
    (hE : NoTrigRun t s E)
    (hEhead : ∀ x, E.head? = some x → s x = false) :
    NoTrigRun t s (pre ++ t' ++ E) := by
  intro a b hab
  by_cases hB : (a ++ t).length ≤ (pre ++ t').length
  · obtain ⟨tk, htk1, htk2⟩ := append_eq_split (pre ++ t') E (a ++ t) b hab hB
    have hctx' : List.dropWhile s (tk ++ post) = tk ++ post := by
      apply hctx a (tk ++ post)
      rw [htk1, List.append_assoc]
    rw [htk2]
    cases tk with
    | nil =>
      simp only [List.nil_append] at hctx' ⊢
      exact dropWhile_eq_self_of_head s E hEhead
    | cons x tk' =>
      rw [List.cons_append] at hctx' ⊢
      have hx : s x = false := dropWhile_cons_self s x (tk' ++ post) hctx'
      rw [List.dropWhile_cons_of_neg (by rw [hx]; exact Bool.false_ne_true)]
  · by_cases hA : (pre ++ t').length ≤ a.length
    · have hab' : a ++ (t ++ b) = (pre ++ t') ++ E := by
        rw [← List.append_assoc]
        exact hab.symm
      obtain ⟨a', _, ha2⟩ := append_eq_split a (t ++ b) (pre ++ t') E hab' hA
      exact hE a' b (by rw [ha2, List.append_assoc])
    · exfalso
      have hab' : (pre ++ t') ++ E = a ++ (t ++ b) := by
        rw [← List.append_assoc]
        exact hab
      obtain ⟨w, hw1, hw2⟩ := append_eq_split (pre ++ t') E a (t ++ b) hab'
        (Nat.le_of_lt (Nat.lt_of_not_le hA))
      have hlenP : (pre ++ t').length = pre.length + t'.length :=
        List.length_append _ _
      have hlenat : (a ++ t).length = a.length + t.length := List.length_append _ _
      have hlenw : (pre ++ t').length = a.length + w.length := by
        rw [hw1, List.length_append]
      have hwlen : w.length ≤ t.length := by omega
      obtain ⟨v, hv1, _⟩ := append_eq_split t b w E hw2 hwlen
      have hk0 : 0 < w.length := by omega
      have hklt : w.length < t.length := by omega
      rcases le_or_lt w.length t'.length with hk | hk
      · have hws : w <:+ t' :=
          suffix_of_append_right w pre t' ⟨a, hw1.symm⟩ (by omega)
        have h5 : t.take w.length = w := by
          rw [hv1]
          exact List.take_left w v
        exact hF2 w.length hklt hk0 (by rw [h5]; exact hws)
      · have ht'w : t' <:+ w :=
          suffix_of_append_right t' a w (by rw [← hw1]; exact ⟨pre, rfl⟩)
            (Nat.le_of_lt hk)
        have hwt : w <+: t := ⟨v, hv1.symm⟩
        exact hF1 (ht'w.isInfix.trans hwt.isInfix)

/-- Applying `SimplifySuffixedName` with a different trigger `t'` cannot
create a run of suffix characters after an occurrence of `t`, provided
`t'` does not occur inside `t` and no proper nonempty prefix of `t` is a
suffix of `t'`. -/
theorem ssn_preserves_noTrig (t t' : List Char) (s : Char → Bool)
    (hne' : t' ≠ [])
    (hF1 : ¬ t' <:+: t)
    (hF2 : ∀ k, k < t.length → 0 < k → ¬ (t.take k <:+ t')) :
    ∀ (l : List Char), NoTrigRun t s l →
      NoTrigRun t s (SimplifySuffixedName t' s l) := by
  have main : ∀ (m : Nat) (l : List Char), l.length ≤ m → NoTrigRun t s l →
      NoTrigRun t s (SimplifySuffixedName t' s l) := by
    intro m
    induction m with
    | zero =>
      intro l hl _
      have : l = [] := List.eq_nil_of_length_eq_zero (Nat.le_zero.mp hl)
      subst this
      rw [ssn_nil]
      exact noTrigRun_nil t s
    | succ m ih =>
      intro l hl hNT
      rcases ssn_decomp t' s l with h | ⟨pre, post, hsplit, heq⟩
      · rw [h]
        exact hNT
      · rw [heq]
        have hctx : NoTrigRun t s (pre ++ t' ++ post) := hsplit ▸ hNT
        have hNTd : NoTrigRun t s (List.dropWhile s post) := by
          intro a b hab
          apply hctx (pre ++ t' ++ List.takeWhile s post ++ a) b
          have hpost : post = List.takeWhile s post ++ ((a ++ t) ++ b) := by
            conv_lhs => rw [← List.takeWhile_append_dropWhile s post]
            rw [hab]
          conv_lhs => rw [hpost]
          simp [List.append_assoc]
        have hlen_d : (List.dropWhile s post).length ≤ m := by
          have h1 : (List.dropWhile s post).length ≤ post.length :=
            (List.dropWhile_suffix s).length_le
          have h2 : l.length = pre.length + t'.length + post.length := by
            rw [hsplit, List.length_append, List.length_append]
          have h3 : 1 ≤ t'.length := List.length_pos.mpr hne'
          omega
        exact noTrigRun_glue t t' s hF1 hF2 pre post _ hctx
          (ih (List.dropWhile s post) hlen_d hNTd)
          (fun x hx => head_dropWhile_false s post x (by rw [← ssn_head? t' s]; exact hx))
  intro l
  exact main l.length l (Nat.le_refl _)

/-- Correctness of the first-occurrence splitter. -/
theorem splitFirst_eq (pat : List Char) :
    ∀ (l pre rest : List Char), splitFirst pat l = some (pre, rest) →
      l = pre ++ pat ++ rest := by
  intro l
  induction l with
  | nil =>
    intro pre rest h
    rw [splitFirst] at h
    by_cases hp : pat.isPrefixOf ([] : List Char) = true
    · rw [if_pos hp] at h
      simp only [Option.some.injEq, Prod.mk.injEq] at h
      obtain ⟨h1, h2⟩ := h
      have hpat : pat = [] := by
        obtain ⟨u, hu⟩ := (isPrefixOf_iff_exists pat []).mp hp
        exact (List.append_eq_nil.mp hu.symm).1
      subst hpat
      rw [← h1, ← h2]
      rfl
    · rw [if_neg hp] at h
      exact Option.noConfusion h
  | cons c r ih =>
    intro pre rest h
    rw [splitFirst] at h
    by_cases hp : pat.isPrefixOf (c :: r) = true
    · rw [if_pos hp] at h
      simp only [Option.some.injEq, Prod.mk.injEq] at h
      obtain ⟨h1, h2⟩ := h
      obtain ⟨u, hu⟩ := (isPrefixOf_iff_exists pat (c :: r)).mp hp
      have hd : (c :: r).drop pat.length = u := by rw [hu, List.drop_left]
      rw [← h1, ← h2, hd, hu]
      rfl
    · rw [if_neg hp] at h
      rw [Option.map_eq_some'] at h
      obtain ⟨⟨p1, p2⟩, hsp, heq⟩ := h
      injection heq with h1 h2
      have := ih p1 p2 hsp
      rw [← h1, ← h2, this]
      simp [List.append_assoc]

/-- Re-splitting after a rewrite: the text before the first occurrence still
precedes the first occurrence when the tail is replaced. -/
theorem splitFirst_resplit (pat : List Char) :
    ∀ (l pre rest : List Char), splitFirst pat l = some (pre, rest) →
      ∀ z, splitFirst pat (pre ++ pat ++ z) = some (pre, z) := by
  intro l
  induction l with
  | nil =>
    intro pre rest h z
    rw [splitFirst] at h
    by_cases hp : pat.isPrefixOf ([] : List Char) = true
    · rw [if_pos hp] at h
      simp only [Option.some.injEq, Prod.mk.injEq] at h
      obtain ⟨h1, _⟩ := h
      have hpat : pat = [] := by
        obtain ⟨u, hu⟩ := (isPrefixOf_iff_exists pat []).mp hp
        exact (List.append_eq_nil.mp hu.symm).1
      subst hpat
      rw [← h1]
      rw [splitFirst.eq_def,
        if_pos ((isPrefixOf_iff_exists _ _).mpr ⟨[] ++ [] ++ z, by simp⟩)]
      simp
    · rw [if_neg hp] at h
      exact Option.noConfusion h
  | cons c r ih =>
    intro pre rest h z
    rw [splitFirst] at h
    by_cases hp : pat.isPrefixOf (c :: r) = true
    · rw [if_pos hp] at h
      simp only [Option.some.injEq, Prod.mk.injEq] at h
      obtain ⟨h1, _⟩ := h
      rw [← h1, List.nil_append]
      rw [splitFirst.eq_def, if_pos ((isPrefixOf_iff_exists _ _).mpr ⟨z, rfl⟩)]
      rw [List.drop_left]
    · rw [if_neg hp] at h
      rw [Option.map_eq_some'] at h
      obtain ⟨⟨p1, p2⟩, hsp, heq⟩ := h
      simp only [Prod.mk.injEq] at heq
      obtain ⟨h1, h2⟩ := heq
      rw [← h1]
      rw [List.cons_append, List.cons_append]
      rw [splitFirst.eq_def]
      have hr : r = p1 ++ pat ++ p2 := splitFirst_eq pat r p1 p2 hsp
      have hnp : ¬ pat.isPrefixOf (c :: (p1 ++ pat ++ z)) = true := by
        intro hcontra
        apply hp
        obtain ⟨u, hu⟩ := (isPrefixOf_iff_exists _ _).mp hcontra
        have hX : (c :: (p1 ++ pat)) ++ z = pat ++ u := by
          rw [List.cons_append]
          exact hu
        have hlen : pat.length ≤ (c :: (p1 ++ pat)).length := by
          rw [List.length_cons, List.length_append]
          omega
        obtain ⟨w, hw1, _⟩ := append_eq_split (c :: (p1 ++ pat)) z pat u hX hlen
        apply (isPrefixOf_iff_exists _ _).mpr
        refine ⟨w ++ p2, ?_⟩
        rw [hr, ← List.cons_append, hw1, List.append_assoc]
      rw [if_neg hnp]
      show (splitFirst pat (p1 ++ pat ++ z)).map (fun p => (c :: p.1, p.2)) =
        some (c :: p1, z)
      rw [ih p1 p2 hsp z]
      rfl

/-- `SimplifyLambdaName` when the trigger does not occur. -/
theorem sln_none (name : List Char)
    (h : splitFirst "$$Lambda$".toList name = none) :
    SimplifyLambdaName name = name := by
  unfold SimplifyLambdaName
  rw [h]

/-- `SimplifyLambdaName` factored through `lambdaRewrite` when the trigger
occurs. -/
theorem sln_some (name pre rest : List Char)
    (h : splitFirst "$$Lambda$".toList name = some (pre, rest)) :
    SimplifyLambdaName name = lambdaRewrite name pre rest := by
  unfold SimplifyLambdaName
  rw [h]
  rfl

/-- `SimplifyLambdaName` returns its input unchanged when `$$Lambda$` does
not occur in it. -/
theorem lambda_no_occ (name : List Char) (h : ¬ ("$$Lambda$".toList <:+: name)) :
    SimplifyLambdaName name = name := by
  cases hsp : splitFirst "$$Lambda$".toList name with
  | none => exact sln_none name hsp
  | some pr =>
    exfalso
    obtain ⟨pre, rest⟩ := pr
    exact h ⟨pre, rest, (splitFirst_eq _ name pre rest hsp).symm⟩

/-- `SimplifyLambdaName` is idempotent. -/
theorem lambda_idem (name : List Char) :
    SimplifyLambdaName (SimplifyLambdaName name) = SimplifyLambdaName name := by
  cases hsp : splitFirst "$$Lambda$".toList name with
  | none =>
    have h : SimplifyLambdaName name = name := sln_none name hsp
    rw [h]
    exact h
  | some pr =>
    obtain ⟨pre, rest⟩ := pr
    have hre := splitFirst_resplit "$$Lambda$".toList name pre rest hsp
    have hL : SimplifyLambdaName name = lambdaRewrite name pre rest :=
      sln_some name pre rest hsp
    cases rest with
    | nil =>
      have hname : SimplifyLambdaName name = name := by rw [hL]; rfl
      rw [hname]
      exact hname
    | cons d rest' =>
      by_cases hd : d.isDigit = true
      · cases hdw : List.dropWhile Char.isDigit (d :: rest') with
        | nil =>
          have hname : SimplifyLambdaName name = name := by
            rw [hL]
            simp only [lambdaRewrite, lambdaRewriteGo]
            rw [if_pos hd, hdw]
            rfl
          rw [hname]
          exact hname
        | cons dot r2 =>
          by_cases hdot : dot = '.'
          · cases r2 with
            | nil =>
              have hname : SimplifyLambdaName name = name := by
                rw [hL]
                simp only [lambdaRewrite, lambdaRewriteGo]
                rw [if_pos hd, hdw]
                simp only [lambdaStep2]
                rw [if_pos hdot]
                rfl
              rw [hname]
              exact hname
            | cons e r2' =>
              by_cases he : e.isDigit = true
              · cases hdw2 : List.dropWhile Char.isDigit (e :: r2') with
                | nil =>
                  have hname : SimplifyLambdaName name =
                      pre ++ "$$Lambda$".toList := by
                    rw [hL]
                    simp only [lambdaRewrite, lambdaRewriteGo]
                    rw [if_pos hd, hdw]
                    simp only [lambdaStep2]
                    rw [if_pos hdot]
                    simp only [lambdaStep3]
                    rw [if_pos he, hdw2]
                    rfl
                  rw [hname]
                  have h2 := hre []
                  rw [List.append_nil] at h2
                  rw [sln_some _ pre [] h2]
                  rfl
                | cons f r3 =>
                  have hf : f.isDigit = false :=
                    head_dropWhile_false Char.isDigit (e :: r2') f
                      (by rw [hdw2]; rfl)
                  have hname : SimplifyLambdaName name =
                      pre ++ "$$Lambda$".toList ++ (f :: r3) := by
                    rw [hL]
                    simp only [lambdaRewrite, lambdaRewriteGo]
                    rw [if_pos hd, hdw]
                    simp only [lambdaStep2]
                    rw [if_pos hdot]
                    simp only [lambdaStep3]
                    rw [if_pos he, hdw2]
                    rfl
                  rw [hname]
                  have h2 := hre (f :: r3)
                  rw [sln_some _ pre (f :: r3) h2]
                  simp only [lambdaRewrite, lambdaRewriteGo]
                  rw [if_neg (by rw [hf]; exact Bool.false_ne_true)]
              · have hname : SimplifyLambdaName name = name := by
                  rw [hL]
                  simp only [lambdaRewrite, lambdaRewriteGo]
                  rw [if_pos hd, hdw]
                  simp only [lambdaStep2]
                  rw [if_pos hdot]
                  simp only [lambdaStep3]
                  rw [if_neg he]
                rw [hname]
                exact hname
          · have hname : SimplifyLambdaName name = name := by
              rw [hL]
              simp only [lambdaRewrite, lambdaRewriteGo]
              rw [if_pos hd, hdw]
              simp only [lambdaStep2]
              rw [if_neg hdot]
            rw [hname]
            exact hname
      · have hname : SimplifyLambdaName name = name := by
          rw [hL]
          simp only [lambdaRewrite, lambdaRewriteGo]
          rw [if_neg hd]
        rw [hname]
        exact hname

/-- `SimplifyReflectionMethodName` returns its input unchanged when none of
the three accessor triggers occurs in it. -/
theorem reflection_no_occ (name : List Char)
    (h1 : ¬ ("sun.reflect.GeneratedConstructorAccessor".toList <:+: name))
    (h2 : ¬ ("sun.reflect.GeneratedMethodAccessor".toList <:+: name))
    (h3 : ¬ ("sun.reflect.GeneratedSerializationConstructorAccessor".toList <:+: name)) :
    SimplifyReflectionMethodName name = name := by
  unfold SimplifyReflectionMethodName
  rw [ssn_no_occ _ decDigitOrNul name h1, ssn_no_occ _ decDigitOrNul name h2,
    ssn_no_occ _ decDigitOrNul name h3]

/-- `SimplifyReflectionMethodName` is idempotent: after one pass, every
occurrence of each accessor trigger is followed by a non-digit, and the
other two rewrites cannot create a new digit run behind it. -/
theorem reflection_idem (l : List Char) :
    SimplifyReflectionMethodName (SimplifyReflectionMethodName l) =
      SimplifyReflectionMethodName l := by
  have hne1 : ("sun.reflect.GeneratedConstructorAccessor".toList : List Char) ≠ [] := by
    decide
  have hne2 : ("sun.reflect.GeneratedMethodAccessor".toList : List Char) ≠ [] := by
    decide
  have hne3 :
      ("sun.reflect.GeneratedSerializationConstructorAccessor".toList : List Char) ≠ [] := by
    decide
  have hov1 : NoSelfOverlap "sun.reflect.GeneratedConstructorAccessor".toList := by
    unfold NoSelfOverlap
    decide
  have hov2 : NoSelfOverlap "sun.reflect.GeneratedMethodAccessor".toList := by
    unfold NoSelfOverlap
    decide
  have hov3 :
      NoSelfOverlap "sun.reflect.GeneratedSerializationConstructorAccessor".toList := by
    unfold NoSelfOverlap
    decide
  have hF1a : ¬ ("sun.reflect.GeneratedMethodAccessor".toList <:+:
      "sun.reflect.GeneratedConstructorAccessor".toList) := by decide
  have hF2a : ∀ k, k < ("sun.reflect.GeneratedConstructorAccessor".toList).length →
      0 < k → ¬ (("sun.reflect.GeneratedConstructorAccessor".toList).take k <:+
        "sun.reflect.GeneratedMethodAccessor".toList) := by decide
  have hF1b : ¬ ("sun.reflect.GeneratedSerializationConstructorAccessor".toList <:+:
      "sun.reflect.GeneratedConstructorAccessor".toList) := by decide
  have hF2b : ∀ k, k < ("sun.reflect.GeneratedConstructorAccessor".toList).length →
      0 < k → ¬ (("sun.reflect.GeneratedConstructorAccessor".toList).take k <:+
        "sun.reflect.GeneratedSerializationConstructorAccessor".toList) := by decide
  have hF1c : ¬ ("sun.reflect.GeneratedSerializationConstructorAccessor".toList <:+:
      "sun.reflect.GeneratedMethodAccessor".toList) := by decide
  have hF2c : ∀ k, k < ("sun.reflect.GeneratedMethodAccessor".toList).length →
      0 < k → ¬ (("sun.reflect.GeneratedMethodAccessor".toList).take k <:+
        "sun.reflect.GeneratedSerializationConstructorAccessor".toList) := by decide
  unfold SimplifyReflectionMethodName
  have n1 : NoTrigRun "sun.reflect.GeneratedConstructorAccessor".toList decDigitOrNul
      (SimplifySuffixedName "sun.reflect.GeneratedConstructorAccessor".toList
        decDigitOrNul l) :=
    noTrig_of_fixed _ decDigitOrNul hov1 hne1 _ (ssn_idem _ decDigitOrNul hne1 l)
  have n1' : NoTrigRun "sun.reflect.GeneratedConstructorAccessor".toList decDigitOrNul
      (SimplifySuffixedName "sun.reflect.GeneratedMethodAccessor".toList decDigitOrNul
        (SimplifySuffixedName "sun.reflect.GeneratedConstructorAccessor".toList
          decDigitOrNul l)) :=
    ssn_preserves_noTrig _ _ decDigitOrNul hne2 hF1a hF2a _ n1
  have n1'' : NoTrigRun "sun.reflect.GeneratedConstructorAccessor".toList decDigitOrNul
      (SimplifySuffixedName
        "sun.reflect.GeneratedSerializationConstructorAccessor".toList decDigitOrNul
        (SimplifySuffixedName "sun.reflect.GeneratedMethodAccessor".toList decDigitOrNul
          (SimplifySuffixedName "sun.reflect.GeneratedConstructorAccessor".toList
            decDigitOrNul l))) :=
    ssn_preserves_noTrig _ _ decDigitOrNul hne3 hF1b hF2b _ n1'
  have n2 : NoTrigRun "sun.reflect.GeneratedMethodAccessor".toList decDigitOrNul
      (SimplifySuffixedName "sun.reflect.GeneratedMethodAccessor".toList decDigitOrNul
        (SimplifySuffixedName "sun.reflect.GeneratedConstructorAccessor".toList
          decDigitOrNul l)) :=
    noTrig_of_fixed _ decDigitOrNul hov2 hne2 _ (ssn_idem _ decDigitOrNul hne2 _)
  have n2' : NoTrigRun "sun.reflect.GeneratedMethodAccessor".toList decDigitOrNul
      (SimplifySuffixedName
        "sun.reflect.GeneratedSerializationConstructorAccessor".toList decDigitOrNul
        (SimplifySuffixedName "sun.reflect.GeneratedMethodAccessor".toList decDigitOrNul
          (SimplifySuffixedName "sun.reflect.GeneratedConstructorAccessor".toList
            decDigitOrNul l))) :=
    ssn_preserves_noTrig _ _ decDigitOrNul hne3 hF1c hF2c _ n2
  have n3 : NoTrigRun
      "sun.reflect.GeneratedSerializationConstructorAccessor".toList decDigitOrNul
      (SimplifySuffixedName
        "sun.reflect.GeneratedSerializationConstructorAccessor".toList decDigitOrNul
        (SimplifySuffixedName "sun.reflect.GeneratedMethodAccessor".toList decDigitOrNul
          (SimplifySuffixedName "sun.reflect.GeneratedConstructorAccessor".toList
            decDigitOrNul l))) :=
    noTrig_of_fixed _ decDigitOrNul hov3 hne3 _ (ssn_idem _ decDigitOrNul hne3 _)
  rw [fixed_of_noTrig _ decDigitOrNul hne1 _ n1'',
    fixed_of_noTrig _ decDigitOrNul hne2 _ n2',
    fixed_of_noTrig _ decDigitOrNul hne3 _ n3]

/-- C8: each of the three name rewrites (DynamicClass, Lambda, Reflection)
is idempotent — applying it twice equals applying it once — and each returns
its input unchanged when the input does not contain its trigger substring
(`$$` for the dynamic-class rewrite, `$$Lambda$` for the lambda rewrite, and
the three `sun.reflect.Generated*Accessor` class names for the reflection
rewrite); `SimplifyFunctionName` composes them in the order
Reflection(Lambda(DynamicClass(name))). -/
theorem c8_rewrite_algebra (name : String) :
    SimplifyDynamicClassName (SimplifyDynamicClassName name.data) =
      SimplifyDynamicClassName name.data ∧
    SimplifyLambdaName (SimplifyLambdaName name.data) =
      SimplifyLambdaName name.data ∧
    SimplifyReflectionMethodName (SimplifyReflectionMethodName name.data) =
      SimplifyReflectionMethodName name.data ∧
    (¬ ("$$".toList <:+: name.data) →
      SimplifyDynamicClassName name.data = name.data) ∧
    (¬ ("$$Lambda$".toList <:+: name.data) →
      SimplifyLambdaName name.data = name.data) ∧
    ((¬ ("sun.reflect.GeneratedConstructorAccessor".toList <:+: name.data) ∧
      ¬ ("sun.reflect.GeneratedMethodAccessor".toList <:+: name.data) ∧
      ¬ ("sun.reflect.GeneratedSerializationConstructorAccessor".toList <:+:
        name.data)) →
      SimplifyReflectionMethodName name.data = name.data) ∧
    SimplifyFunctionName name =
      ⟨SimplifyReflectionMethodName
        (SimplifyLambdaName (SimplifyDynamicClassName name.data))⟩ := by
  refine ⟨?_, lambda_idem name.data, reflection_idem name.data, ?_, ?_, ?_, rfl⟩
  · exact ssn_idem "$$".toList hexDigitOrNul (by decide) name.data
  · intro h
    exact ssn_no_occ "$$".toList hexDigitOrNul name.data h
  · intro h
    exact lambda_no_occ name.data h
  · rintro ⟨h1, h2, h3⟩
    exact reflection_no_occ name.data h1 h2 h3

/-- Witness for C8 at the concrete input `"abc"`, discharging the
no-occurrence hypotheses by computation. -/
theorem c8_witness :
    SimplifyDynamicClassName "abc".data = "abc".data ∧
    SimplifyLambdaName "abc".data = "abc".data ∧
    SimplifyReflectionMethodName "abc".data = "abc".data :=
  ⟨(c8_rewrite_algebra "abc").2.2.2.1 (by decide),
   (c8_rewrite_algebra "abc").2.2.2.2.1 (by decide),
   (c8_rewrite_algebra "abc").2.2.2.2.2.1 ⟨by decide, by decide, by decide⟩⟩

end Javaprofiler
